import Mathlib

/-!
Verification of the tradusco batch-translation engine.

This file shallowly embeds the parts of the repository relevant to the
frozen claims:

* `src/lib/llm/BaseDriver.py` — `translate_async` retry/backoff loop;
* `src/lib/TranslationProject.py` — candidate extraction and JSON parsing
  (`_parse_batch_response`), JSON repair (`_fix_invalid_json`), batch
  accumulation and the `translate` orchestration loop
  (`translate`, `_process_batch`, `_update_translations_from_batch`);
* `src/lib/llm/__init__.py` — the driver registry (`get_driver`);
* `src/lib/PromptManager.py` — `format_prompt`.

Python dictionaries are modelled as association lists with
insertion-order semantics (update in place, insert at the end), Python
strings as Lean `String`, byte sizes via `String.utf8ByteSize`, float
delays as rationals, and exceptions as `Except`.
-/

namespace Tradusco

/-! ### Python `dict` model -/

/-- Lookup in an insertion-ordered association list (Python `d[k]` /
`k in d`, first binding wins; our `dinsert` keeps keys unique). -/
def dget {α : Type} (m : List (String × α)) (k : String) : Option α :=
  match m with
  | [] => none
  | (k', v) :: rest => if k' = k then some v else dget rest k

/-- Python `d[k] = v`: update the existing binding in place, otherwise
append a new binding at the end. -/
def dinsert {α : Type} (m : List (String × α)) (k : String) (v : α) :
    List (String × α) :=
  match m with
  | [] => [(k, v)]
  | (k', v') :: rest =>
    if k' = k then (k, v) :: rest else (k', v') :: dinsert rest k v

theorem dget_dinsert_self {α : Type} (m : List (String × α)) (k : String)
    (v : α) : dget (dinsert m k v) k = some v := by
  induction m with
  | nil => simp [dget, dinsert]
  | cons p rest ih =>
    obtain ⟨k', v'⟩ := p
    by_cases h : k' = k <;> simp [dget, dinsert, h, ih]

theorem dget_dinsert_ne {α : Type} (m : List (String × α)) (k k' : String)
    (v : α) (hne : k' ≠ k) : dget (dinsert m k v) k' = dget m k' := by
  have hne' : ¬k = k' := fun hh => hne hh.symm
  induction m with
  | nil => simp [dget, dinsert, hne']
  | cons p rest ih =>
    obtain ⟨k₀, v₀⟩ := p
    by_cases h : k₀ = k
    · subst h
      simp [dget, dinsert, hne']
    · by_cases h' : k₀ = k' <;> simp [dget, dinsert, h, h', ih, hne]

theorem dget_dinsert_isSome {α : Type} (m : List (String × α))
    (k k' : String) (v : α) (h : (dget m k').isSome) :
    (dget (dinsert m k v) k').isSome := by
  by_cases hk : k' = k
  · subst hk; simp [dget_dinsert_self]
  · rwa [dget_dinsert_ne m k k' v hk]

/-! ### `BaseDriver.translate_async` (src/lib/llm/BaseDriver.py, 104–131)

The underlying `self.llm.ainvoke` call is modelled by an oracle
`attempt : ℕ → Option String`: `attempt k` is the outcome of the
(0-based) `k`-th attempt — `none` for an exception, `some s` for a reply
with content `s`.  The embedding returns the sequence of `asyncio.sleep`
durations executed (in order), the number of attempts made, and either
the returned content or the terminal error. -/

def translateFailMsg (maxRetries : ℕ) : String :=
  "Failed to translate after " ++ toString maxRetries ++ " attempts"

/-- The `for retry in range(max_retries)` loop of `translate_async`,
starting at attempt index `k`. -/
def translateAsyncGo (attempt : ℕ → Option String) (delay : ℚ)
    (maxRetries : ℕ) (k : ℕ) : List ℚ × ℕ × Except String String :=
  if _h : k < maxRetries then
    match attempt k with
    | some s => ([delay], 1, .ok s)
    | none =>
      if k < maxRetries - 1 then
        let r := translateAsyncGo attempt delay maxRetries (k + 1)
        (delay * 2 ^ k :: r.1, r.2.1 + 1, r.2.2)
      else ([], 1, .error (translateFailMsg maxRetries))
  else ([], 0, .error (translateFailMsg maxRetries))
termination_by maxRetries - k

/-- `BaseDriver.translate_async(prompt, delay_seconds, max_retries)`:
result is `(sleeps, attempts_made, outcome)`. -/
def translateAsync (attempt : ℕ → Option String) (delay : ℚ)
    (maxRetries : ℕ) : List ℚ × ℕ × Except String String :=
  translateAsyncGo attempt delay maxRetries 0

theorem backoff_range_shift (delay : ℚ) (k n : ℕ) :
    delay * 2 ^ k :: (List.range n).map (fun i => delay * 2 ^ (k + 1 + i)) =
    (List.range (n + 1)).map (fun i => delay * 2 ^ (k + i)) := by
  simp only [List.range_succ_eq_map, List.map_cons, List.map_map,
    Nat.add_zero]
  congr 1
  apply List.map_congr_left
  intro i _
  simp only [Function.comp_apply, Nat.succ_eq_add_one]
  rw [show k + 1 + i = k + (i + 1) by omega]

theorem translateAsyncGo_all_fail (attempt : ℕ → Option String) (delay : ℚ)
    (maxRetries : ℕ) :
    ∀ n k, n = maxRetries - k → k < maxRetries →
    (∀ j, k ≤ j → j < maxRetries → attempt j = none) →
    translateAsyncGo attempt delay maxRetries k =
      (((List.range (maxRetries - 1 - k)).map
          (fun i => delay * 2 ^ (k + i))),
        maxRetries - k, .error (translateFailMsg maxRetries)) := by
  intro n
  induction n with
  | zero => intro k hn hk hfail; omega
  | succ n ih =>
    intro k hn hk hfail
    unfold translateAsyncGo
    rw [dif_pos hk]
    rw [hfail k le_rfl hk]
    by_cases hlast : k < maxRetries - 1
    · rw [if_pos hlast]
      dsimp only
      rw [ih (k + 1) (by omega) (by omega)
        (fun j hj1 hj2 => hfail j (by omega) hj2)]
      have hlist : delay * 2 ^ k ::
          (List.range (maxRetries - 1 - (k + 1))).map
            (fun i => delay * 2 ^ (k + 1 + i)) =
          (List.range (maxRetries - 1 - k)).map
            (fun i => delay * 2 ^ (k + i)) := by
        rw [show maxRetries - 1 - k = (maxRetries - 1 - (k + 1)) + 1 by omega]
        exact backoff_range_shift delay k _
      simp only [Prod.mk.injEq]
      refine ⟨hlist, by omega, by simp⟩
    · rw [if_neg hlast]
      simp only [Prod.mk.injEq]
      refine ⟨?_, by omega, by simp⟩
      rw [show maxRetries - 1 - k = 0 by omega]
      simp

theorem translateAsyncGo_succeeds (attempt : ℕ → Option String) (delay : ℚ)
    (maxRetries : ℕ) (s : String) :
    ∀ n k j, n = j - k → k ≤ j → j < maxRetries →
    (∀ i, k ≤ i → i < j → attempt i = none) → attempt j = some s →
    translateAsyncGo attempt delay maxRetries k =
      (((List.range (j - k)).map (fun i => delay * 2 ^ (k + i))) ++ [delay],
        j - k + 1, .ok s) := by
  intro n
  induction n with
  | zero =>
    intro k j hn hkj hj _ hsucc
    have hkj' : k = j := by omega
    subst hkj'
    unfold translateAsyncGo
    rw [dif_pos hj, hsucc]
    rw [show k - k = 0 by omega]
    simp
  | succ n ih =>
    intro k j hn hkj hj hfail hsucc
    have hklt : k < j := by omega
    have hkm : k < maxRetries := by omega
    unfold translateAsyncGo
    rw [dif_pos hkm]
    rw [hfail k le_rfl hklt]
    have hlast : k < maxRetries - 1 := by omega
    rw [if_pos hlast]
    dsimp only
    rw [ih (k + 1) j (by omega) (by omega) hj
      (fun i hi1 hi2 => hfail i (by omega) hi2) hsucc]
    have hlist : delay * 2 ^ k ::
        ((List.range (j - (k + 1))).map (fun i => delay * 2 ^ (k + 1 + i)) ++
          [delay]) =
        (List.range (j - k)).map (fun i => delay * 2 ^ (k + i)) ++ [delay] := by
      rw [show j - k = (j - (k + 1)) + 1 by omega, ← List.cons_append,
        backoff_range_shift delay k _]
    simp only [Prod.mk.injEq]
    refine ⟨hlist, by omega, by simp⟩

/-- C3: backoff schedule of `BaseDriver.translate_async`.  For every
delay `d > 0` and `max_retries = n ≥ 1`: (1) if every attempt fails, the
adapter sleeps `d * 2^k` after each failed attempt `k` (for
`k = 0 … n-2`) and then raises a terminal error after `n` failed
attempts; (2) if attempt `j` is the first to succeed, the sleeps
executed before it are exactly `d * 2^0, …, d * 2^(j-1)` (followed by
the post-success rate-limit sleep `d`) and the result of attempt `j` is
returned; (3) concretely, with `delay_seconds = 1.0`, `max_retries = 3`
and a driver failing twice then succeeding, the sleeps before the third
attempt are `1` then `2` seconds and the third attempt's result is
returned. -/
theorem C3_backoff_schedule (attempt : ℕ → Option String) (d : ℚ) (n : ℕ)
    (hd : 0 < d) (hn : 1 ≤ n) :
    ((∀ j, j < n → attempt j = none) →
      translateAsync attempt d n =
        (((List.range (n - 1)).map fun k => d * 2 ^ k), n,
          .error (translateFailMsg n))) ∧
    (∀ j s, j < n → (∀ i, i < j → attempt i = none) → attempt j = some s →
      translateAsync attempt d n =
        ((((List.range j).map fun k => d * 2 ^ k) ++ [d]), j + 1, .ok s)) ∧
    translateAsync (fun k => if k < 2 then none else some "OK") 1 3 =
      ([1, 2, 1], 3, .ok "OK") := by
  refine ⟨?_, ?_, ?_⟩
  · intro hfail
    have h := translateAsyncGo_all_fail attempt d n n 0 (by omega) (by omega)
      (fun j _ hj => hfail j hj)
    simpa [translateAsync] using h
  · intro j s hj hfail hsucc
    have h := translateAsyncGo_succeeds attempt d n s j 0 j (by omega)
      (by omega) hj (fun i _ hi => hfail i hi) hsucc
    simpa [translateAsync] using h
  · have h := translateAsyncGo_succeeds
      (fun k => if k < 2 then none else some "OK") 1 3 "OK" 2 0 2
      (by omega) (by omega) (by omega)
      (fun i _ hi => by simp [hi]) (by norm_num)
    show translateAsyncGo _ _ _ 0 = _
    rw [h]
    norm_num [List.range_succ]

/-- Witness for C3 at concrete inputs. -/
theorem C3_backoff_schedule_witness :
    translateAsync (fun k => if k < 2 then none else some "OK") 1 3 =
      ([1, 2, 1], 3, .ok "OK") :=
  (C3_backoff_schedule (fun k => if k < 2 then none else some "OK") 1 3
    (by norm_num) (by norm_num)).2.2

/-! ### Candidate-payload extraction
(src/lib/TranslationProject.py, 299–311 and 274–285)

Both `_parse_batch_response` and `_fix_invalid_json` locate a candidate
JSON payload in the raw model reply with the same two regexes:
first <three backticks>`(?:json)?\s*([\s\S]*?)\s*`<three backticks>,
then `(\[[\s\S]*\]|\{[\s\S]*\})`, and otherwise use the whole text.
The embedding implements the exact leftmost-match semantics of those
Python regexes on the character list of the reply. -/

/-- Python (Unicode) `\s` character class. -/
def isPySpace (c : Char) : Bool :=
  c == ' ' || c == '\t' || c == '\n' || c == '\r' || c == '\x0b' ||
  c == '\x0c' || c == '\x1c' || c == '\x1d' || c == '\x1e' || c == '\x1f' ||
  c == '\x85' || c == '\xa0' || c == '\u1680' ||
  (decide ('\u2000' ≤ c) && decide (c ≤ '\u200A')) ||
  c == '\u2028' || c == '\u2029' || c == '\u202F' || c == '\u205F' ||
  c == '\u3000'

/-- Does the list start with a triple-backtick fence? -/
def isFence : List Char → Bool
  | '`' :: '`' :: '`' :: _ => true
  | _ => false

/-- Skip to just after the first triple-backtick fence, if any. -/
def findFence : List Char → Option (List Char)
  | [] => none
  | c :: rest =>
    if isFence (c :: rest) then some (rest.drop 2) else findFence rest

/-- The optional greedy `(?:json)?` right after the opening fence. -/
def stripJsonTag : List Char → List Char
  | 'j' :: 's' :: 'o' :: 'n' :: rest => rest
  | l => l

/-- Characters strictly before the first triple-backtick fence
(`none` when there is no closing fence). -/
def takeUntilFence : List Char → Option (List Char)
  | [] => none
  | c :: rest =>
    if isFence (c :: rest) then some []
    else (takeUntilFence rest).map (fun l => c :: l)

/-- Strip trailing Python-`\s` characters. -/
def rstripPy (l : List Char) : List Char :=
  (l.reverse.dropWhile isPySpace).reverse

/-- Leftmost match of the fenced-code-block regex: content between the
first fence (after an optional `json` tag) and the next fence, with
surrounding whitespace stripped. -/
def extractCodeBlock (s : List Char) : Option (List Char) :=
  (findFence s).bind fun afterOpen =>
    (takeUntilFence ((stripJsonTag afterOpen).dropWhile isPySpace)).map
      rstripPy

/-- Longest prefix of `l` ending with the character `c` (the greedy
`[\s\S]*` followed by `c`), if `c` occurs in `l`. -/
def takeUpToLast (c : Char) (l : List Char) : Option (List Char) :=
  let r := l.reverse.dropWhile (fun x => x != c)
  if r.isEmpty then none else some r.reverse

/-- Leftmost match of `(\[[\s\S]*\]|\{[\s\S]*\})`: from the first `[`
with a matching later `]` (or `{` with a later `}`) to the last such
closer. -/
def findBracketPayload : List Char → Option (List Char)
  | [] => none
  | c :: rest =>
    if c = '[' then
      match takeUpToLast ']' rest with
      | some pre => some ('[' :: pre)
      | none => findBracketPayload rest
    else if c = '{' then
      match takeUpToLast '}' rest with
      | some pre => some ('{' :: pre)
      | none => findBracketPayload rest
    else findBracketPayload rest

/-- Candidate payload selection shared by `_parse_batch_response` and
`_fix_invalid_json`: fenced code block content if present, else the
first JSON array/object found, else the entire text. -/
def extractCandidate (s : String) : String :=
  match extractCodeBlock s.data with
  | some c => String.mk c
  | none =>
    match findBracketPayload s.data with
    | some c => String.mk c
    | none => s

/-! ### `TranslationProject._fix_invalid_json`
(src/lib/TranslationProject.py, 251–289)

The repair call sends one fix-up prompt through
`driver.translate_async(prompt, delay_seconds=1.0, max_retries=2)`;
the prompt text itself does not influence control flow, so the driver
is modelled by the same attempt oracle as `translateAsync`. -/

def fixInvalidJson (attempt : ℕ → Option String) (invalid : String) :
    String :=
  match (translateAsync attempt 1 2).2.2 with
  | .ok corrected => extractCandidate corrected
  | .error _ => invalid

theorem translateAsyncGo_attempts_le (attempt : ℕ → Option String)
    (delay : ℚ) (maxRetries : ℕ) :
    ∀ n k, n = maxRetries - k →
    (translateAsyncGo attempt delay maxRetries k).2.1 ≤ maxRetries - k := by
  intro n
  induction n with
  | zero =>
    intro k hn
    unfold translateAsyncGo
    rw [dif_neg (by omega)]
    simp
  | succ n ih =>
    intro k hn
    unfold translateAsyncGo
    rw [dif_pos (by omega)]
    cases attempt k with
    | some s => simp; omega
    | none =>
      by_cases hlast : k < maxRetries - 1
      · rw [if_pos hlast]
        have := ih (k + 1) (by omega)
        dsimp only
        omega
      · rw [if_neg hlast]
        simp; omega

/-- C6 (amended): repair is best-effort and total — it issues one model
call bounded by 2 transport attempts; on a successful reply it returns
the payload extracted from the reply (code block first, then first
array/object, else the full reply unchanged); on any transport error it
returns the original invalid fragment verbatim and never raises.  The
extracted payload may, however, be empty (e.g. an empty fenced code
block), so repair does not guarantee a non-empty result. -/
theorem C6_repair_best_effort (attempt : ℕ → Option String)
    (invalid : String) :
    (translateAsync attempt 1 2).2.1 ≤ 2 ∧
    (∀ r, (translateAsync attempt 1 2).2.2 = .ok r →
      fixInvalidJson attempt invalid = extractCandidate r) ∧
    (∀ e, (translateAsync attempt 1 2).2.2 = .error e →
      fixInvalidJson attempt invalid = invalid) := by
  refine ⟨translateAsyncGo_attempts_le attempt 1 2 2 0 rfl, ?_, ?_⟩
  · intro r hr
    unfold fixInvalidJson
    rw [hr]
  · intro e he
    unfold fixInvalidJson
    rw [he]

/-- Witness for C6 at a concrete input: a driver that always fails makes
repair return the original fragment. -/
theorem C6_repair_best_effort_witness :
    fixInvalidJson (fun _ => none) "not json" = "not json" := by
  have hfail : (translateAsync (fun _ : ℕ => none) 1 2).2.2 =
      .error (translateFailMsg 2) := by
    rw [translateAsync, translateAsyncGo_all_fail (fun _ => none) 1 2 2 0
      (by omega) (by omega) (fun _ _ _ => rfl)]
  exact (C6_repair_best_effort (fun _ => none) "not json").2.2
    (translateFailMsg 2) hfail

/-- C6 counterexample: the claim that repair "never returns an empty
result in place of its input" fails — a reply consisting of an empty
fenced code block makes `_fix_invalid_json` return the empty string. -/
theorem C6_counterexample :
    fixInvalidJson (fun _ => some "``````") "not json" = "" ∧
    ("not json" ≠ "") := by
  constructor
  · have hok : (translateAsync (fun _ : ℕ => some "``````") 1 2).2.2 =
        .ok "``````" := by
      rw [translateAsync, translateAsyncGo_succeeds
        (fun _ => some "``````") 1 2 "``````" 0 0 0 (by omega) (by omega)
        (by omega) (fun i _ hi => by omega) rfl]
    unfold fixInvalidJson
    rw [hok]
    rfl
  · decide

/-! ### A model of Python `json.loads`

`_parse_batch_response` decodes the candidate payload with
`json.loads`.  JSON values are embedded as `JValue`; numeric literals
are kept as their source text, since the code under verification never
inspects numeric values, only their type.  The decoder follows the
grammar of Python's `json` module (strict mode): JSON whitespace
` \t\n\r`, double-quoted strings with the eight standard escapes and
`\uXXXX` (surrogate pairs combined), numbers
`-?(0|[1-9][0-9]*)(.[0-9]+)?([eE][+-]?[0-9]+)?`, the constants `true`,
`false`, `null`, `NaN`, `Infinity`, `-Infinity`, arrays, and objects
whose duplicate keys collapse with last-wins semantics; the whole
input must be consumed up to trailing whitespace. -/

inductive JValue where
  | null
  | bool (b : Bool)
  | num (lit : String)
  | str (s : String)
  | arr (elems : List JValue)
  | obj (fields : List (String × JValue))

def isJWs (c : Char) : Bool :=
  c == ' ' || c == '\t' || c == '\n' || c == '\r'

def skipJWs (l : List Char) : List Char := l.dropWhile isJWs

def hexVal (c : Char) : Option ℕ :=
  if '0' ≤ c ∧ c ≤ '9' then some (c.toNat - 48)
  else if 'a' ≤ c ∧ c ≤ 'f' then some (c.toNat - 87)
  else if 'A' ≤ c ∧ c ≤ 'F' then some (c.toNat - 55)
  else none

def parseHex4 : List Char → Option (ℕ × List Char)
  | a :: b :: c :: d :: rest =>
    match hexVal a, hexVal b, hexVal c, hexVal d with
    | some va, some vb, some vc, some vd =>
      some ((((va * 16 + vb) * 16 + vc) * 16 + vd), rest)
    | _, _, _, _ => none
  | _ => none

/-- One character of codepoint `n`, with the replacement character for
a lone surrogate (unrepresentable as a Lean `Char`). -/
def charOfCodepoint (n : ℕ) : Char :=
  if h : n.isValidChar then ⟨⟨n, by
    rcases h with h | ⟨_, h⟩
    · omega
    · omega⟩, h⟩
  else '�'

/-- String body after the opening quote: returns the decoded content
and the input after the closing quote. -/
def parseJStringAux : ℕ → List Char → Option (List Char × List Char)
  | 0, _ => none
  | _, [] => none
  | fuel + 1, c :: rest =>
    if c = '"' then some ([], rest)
    else if c = '\\' then
      match rest with
      | [] => none
      | e :: rest2 =>
        if e = 'u' then
          match parseHex4 rest2 with
          | none => none
          | some (n, rest3) =>
            if 0xD800 ≤ n ∧ n ≤ 0xDBFF then
              match rest3 with
              | '\\' :: 'u' :: rest4 =>
                match parseHex4 rest4 with
                | some (n2, rest5) =>
                  if 0xDC00 ≤ n2 ∧ n2 ≤ 0xDFFF then
                    let cp := 0x10000 + (n - 0xD800) * 0x400 + (n2 - 0xDC00)
                    (parseJStringAux fuel rest5).map
                      (fun p => (charOfCodepoint cp :: p.1, p.2))
                  else
                    (parseJStringAux fuel rest3).map
                      (fun p => (charOfCodepoint n :: p.1, p.2))
                | none =>
                  (parseJStringAux fuel rest3).map
                    (fun p => (charOfCodepoint n :: p.1, p.2))
              | _ =>
                (parseJStringAux fuel rest3).map
                  (fun p => (charOfCodepoint n :: p.1, p.2))
            else
              (parseJStringAux fuel rest3).map
                (fun p => (charOfCodepoint n :: p.1, p.2))
        else
          let dec : Option Char :=
            if e = '"' then some '"'
            else if e = '\\' then some '\\'
            else if e = '/' then some '/'
            else if e = 'b' then some '\x08'
            else if e = 'f' then some '\x0c'
            else if e = 'n' then some '\n'
            else if e = 'r' then some '\r'
            else if e = 't' then some '\t'
            else none
          match dec with
          | none => none
          | some ch =>
            (parseJStringAux fuel rest2).map (fun p => (ch :: p.1, p.2))
    else if c.toNat < 0x20 then none
    else (parseJStringAux fuel rest).map (fun p => (c :: p.1, p.2))

def digits1 : List Char → Option (List Char × List Char)
  | l =>
    let ds := l.takeWhile (fun c => decide ('0' ≤ c) && decide (c ≤ '9'))
    if ds.isEmpty then none else some (ds, l.drop ds.length)

/-- The `NUMBER_RE` regex of Python's json scanner; returns the matched
literal and the remaining input. -/
def parseNumber (l : List Char) : Option (List Char × List Char) :=
  let (sign, l1) := match l with
    | '-' :: t => ([('-' : Char)], t)
    | t => ([], t)
  match l1 with
  | '0' :: t =>
    some (sign ++ ['0'], t) |>.bind fun p => numFracExp p.1 p.2
  | c :: t =>
    if decide ('1' ≤ c) ∧ decide (c ≤ '9') then
      let ds := t.takeWhile (fun c => decide ('0' ≤ c) && decide (c ≤ '9'))
      numFracExp (sign ++ c :: ds) (t.drop ds.length)
    else none
  | [] => none
where
  numFracExp (intPart : List Char) (l : List Char) :
      Option (List Char × List Char) :=
    let (frac, l2) := match l with
      | '.' :: t =>
        match digits1 t with
        | some (ds, rest) => ('.' :: ds, rest)
        | none => ([], l)
      | _ => ([], l)
    let (expPart, l3) := match l2 with
      | e :: t =>
        if e = 'e' ∨ e = 'E' then
          match t with
          | s :: t2 =>
            if s = '+' ∨ s = '-' then
              match digits1 t2 with
              | some (ds, rest) => (e :: s :: ds, rest)
              | none => ([], l2)
            else
              match digits1 t with
              | some (ds, rest) => (e :: ds, rest)
              | none => ([], l2)
          | [] => ([], l2)
        else ([], l2)
      | [] => ([], l2)
    some (intPart ++ frac ++ expPart, l3)

mutual

/-- One JSON value at the head of the input (whitespace already
skipped), in the order Python's scanner tries alternatives. -/
def parseJValue : ℕ → List Char → Option (JValue × List Char)
  | 0, _ => none
  | _, [] => none
  | fuel + 1, c :: rest =>
    if c = '"' then
      (parseJStringAux (rest.length + 1) rest).map
        (fun p => (.str (String.mk p.1), p.2))
    else if c = '{' then
      parseJObj fuel (skipJWs rest) []
    else if c = '[' then
      parseJArr fuel (skipJWs rest) []
    else
      match c :: rest with
      | 'n' :: 'u' :: 'l' :: 'l' :: t => some (.null, t)
      | 't' :: 'r' :: 'u' :: 'e' :: t => some (.bool true, t)
      | 'f' :: 'a' :: 'l' :: 's' :: 'e' :: t => some (.bool false, t)
      | l =>
        match parseNumber l with
        | some (lit, t) => some (.num (String.mk lit), t)
        | none =>
          match l with
          | 'N' :: 'a' :: 'N' :: t => some (.num "NaN", t)
          | 'I' :: 'n' :: 'f' :: 'i' :: 'n' :: 'i' :: 't' :: 'y' :: t =>
            some (.num "Infinity", t)
          | '-' :: 'I' :: 'n' :: 'f' :: 'i' :: 'n' :: 'i' :: 't' :: 'y' :: t =>
            some (.num "-Infinity", t)
          | _ => none

/-- Array elements; `acc` holds the elements parsed so far.  The input
starts just after `[` (or after a comma), whitespace skipped. -/
def parseJArr (fuel : ℕ) (l : List Char) (acc : List JValue) :
    Option (JValue × List Char) :=
  match fuel with
  | 0 => none
  | fuel + 1 =>
    match l with
    | ']' :: t =>
      if acc.isEmpty then some (.arr [], t) else none
    | l =>
      match parseJValue fuel l with
      | none => none
      | some (v, t) =>
        match skipJWs t with
        | ',' :: t2 => parseJArr fuel (skipJWs t2) (acc ++ [v])
        | ']' :: t2 => some (.arr (acc ++ [v]), t2)
        | _ => none

/-- Object members; `acc` holds the fields parsed so far (duplicate
keys collapse, last wins, as for a Python `dict`). -/
def parseJObj (fuel : ℕ) (l : List Char) (acc : List (String × JValue)) :
    Option (JValue × List Char) :=
  match fuel with
  | 0 => none
  | fuel + 1 =>
    match l with
    | '}' :: t =>
      if acc.isEmpty then some (.obj [], t) else none
    | '"' :: t =>
      match parseJStringAux (t.length + 1) t with
      | none => none
      | some (key, t2) =>
        match skipJWs t2 with
        | ':' :: t3 =>
          match parseJValue fuel (skipJWs t3) with
          | none => none
          | some (v, t4) =>
            let acc2 := dinsert acc (String.mk key) v
            match skipJWs t4 with
            | ',' :: t5 =>
              match skipJWs t5 with
              | '"' :: t6 => parseJObj fuel ('"' :: t6) acc2
              | _ => none
            | '}' :: t5 => some (.obj acc2, t5)
            | _ => none
        | _ => none
    | _ => none

end

/-- `json.loads` on a candidate string: decode one value, requiring the
entire input to be consumed up to JSON whitespace. -/
def jsonDecode (s : String) : Option JValue :=
  match parseJValue (s.data.length + 2) (skipJWs s.data) with
  | some (v, rest) => if (skipJWs rest).isEmpty then some v else none
  | none => none

/-! ### `TranslationProject._parse_batch_response`
(src/lib/TranslationProject.py, 291–353)

After decoding, the response is interpreted by shape.  A list maps
positionally onto the original phrases; a dict maps by phrase key, by a
`text`/`translation` value object, or by 1-based numeric key (with
Python's negative indexing, so key `"0"` addresses the *last* phrase).
Any exception inside this interpretation — the `KeyError` when a
matched `text` object lacks `"translation"`, the `ValueError` from
`int()` on a numeric-looking key whose digits carry no decimal value
(`str.isdigit` is Unicode-aware, so `"²".isdigit()` holds while
`int("²")` raises), or the `IndexError` from an out-of-range numeric
key — is caught by the surrounding `try` and re-raised as
`InvalidJSONException`, exactly like a decode failure. -/

/-- Starts of the 66 aligned runs of ten consecutive Unicode decimal
digits (category `Nd`, digit values 0–9 at offsets 0–9), Unicode
14.0.0 as shipped with CPython 3.11. -/
def decimalRunStarts : List ℕ :=
  [0x30, 0x660, 0x6f0, 0x7c0, 0x966, 0x9e6, 0xa66, 0xae6,
   0xb66, 0xbe6, 0xc66, 0xce6, 0xd66, 0xde6, 0xe50, 0xed0,
   0xf20, 0x1040, 0x1090, 0x17e0, 0x1810, 0x1946, 0x19d0, 0x1a80,
   0x1a90, 0x1b50, 0x1bb0, 0x1c40, 0x1c50, 0xa620, 0xa8d0, 0xa900,
   0xa9d0, 0xa9f0, 0xaa50, 0xabf0, 0xff10, 0x104a0, 0x10d30, 0x11066,
   0x110f0, 0x11136, 0x111d0, 0x112f0, 0x11450, 0x114d0, 0x11650, 0x116c0,
   0x11730, 0x118e0, 0x11950, 0x11c50, 0x11d50, 0x11da0, 0x16a60, 0x16ac0,
   0x16b50, 0x1d7ce, 0x1d7d8, 0x1d7e2, 0x1d7ec, 0x1d7f6, 0x1e140, 0x1e2f0,
   0x1e950, 0x1fbf0]

/-- Codepoints with the Unicode digit property but no decimal value
(superscripts, circled digits, …): `str.isdigit` accepts them while
`int` raises `ValueError` on them.  Unicode 14.0.0 / CPython 3.11. -/
def digitNonDecimals : List ℕ :=
  [0xb2, 0xb3, 0xb9, 0x1369, 0x136a, 0x136b, 0x136c, 0x136d,
   0x136e, 0x136f, 0x1370, 0x1371, 0x19da, 0x2070, 0x2074, 0x2075,
   0x2076, 0x2077, 0x2078, 0x2079, 0x2080, 0x2081, 0x2082, 0x2083,
   0x2084, 0x2085, 0x2086, 0x2087, 0x2088, 0x2089, 0x2460, 0x2461,
   0x2462, 0x2463, 0x2464, 0x2465, 0x2466, 0x2467, 0x2468, 0x2474,
   0x2475, 0x2476, 0x2477, 0x2478, 0x2479, 0x247a, 0x247b, 0x247c,
   0x2488, 0x2489, 0x248a, 0x248b, 0x248c, 0x248d, 0x248e, 0x248f,
   0x2490, 0x24ea, 0x24f5, 0x24f6, 0x24f7, 0x24f8, 0x24f9, 0x24fa,
   0x24fb, 0x24fc, 0x24fd, 0x24ff, 0x2776, 0x2777, 0x2778, 0x2779,
   0x277a, 0x277b, 0x277c, 0x277d, 0x277e, 0x2780, 0x2781, 0x2782,
   0x2783, 0x2784, 0x2785, 0x2786, 0x2787, 0x2788, 0x278a, 0x278b,
   0x278c, 0x278d, 0x278e, 0x278f, 0x2790, 0x2791, 0x2792, 0x10a40,
   0x10a41, 0x10a42, 0x10a43, 0x10e60, 0x10e61, 0x10e62, 0x10e63, 0x10e64,
   0x10e65, 0x10e66, 0x10e67, 0x10e68, 0x11052, 0x11053, 0x11054, 0x11055,
   0x11056, 0x11057, 0x11058, 0x11059, 0x1105a, 0x1f100, 0x1f101, 0x1f102,
   0x1f103, 0x1f104, 0x1f105, 0x1f106, 0x1f107, 0x1f108, 0x1f109, 0x1f10a]

/-- `Py_UNICODE_TODECIMAL`: the decimal digit value of a character, in
any script. -/
def pyDecimalVal? (c : Char) : Option ℕ :=
  decimalRunStarts.findSome? (fun s =>
    if s ≤ c.toNat ∧ c.toNat < s + 10 then some (c.toNat - s) else none)

def pyIsDigitChar (c : Char) : Bool :=
  (pyDecimalVal? c).isSome || digitNonDecimals.contains c.toNat

/-- Python `str.isdigit`: non-empty and every character has the
Unicode digit property (decimal or digit-only). -/
def pyIsDigit (s : String) : Bool :=
  !s.isEmpty && s.data.all pyIsDigitChar

/-- Python `int(s)` on an `isdigit` string: the base-10 positional
value when every character is a decimal digit (scripts may mix),
`none` — a `ValueError` — when a digit-property character such as
`"²"` has no decimal value. -/
def pyInt? (s : String) : Option ℕ :=
  s.data.foldl (fun acc c =>
    match acc, pyDecimalVal? c with
    | some n, some d => some (n * 10 + d)
    | _, _ => none) (some 0)

/-- Python list indexing with negative-index support;
`none` is an `IndexError`. -/
def pyListGet {γ : Type} (l : List γ) (i : ℤ) : Option γ :=
  if 0 ≤ i then l.get? i.toNat
  else if -(l.length : ℤ) ≤ i then l.get? (i + l.length).toNat
  else none

/-- One element of a decoded JSON *list* response
(`for i, translation in enumerate(translated_items)`). -/
def handleListItem (d : List (String × JValue)) (phrases : List String)
    (i : ℕ) (v : JValue) : List (String × JValue) :=
  if h : i < phrases.length then
    match v with
    | .str s => dinsert d (phrases.get ⟨i, h⟩) (.str s)
    | .obj fs =>
      match dget fs "translation" with
      | some t => dinsert d (phrases.get ⟨i, h⟩) t
      | none =>
        match dget fs "text" with
        | some t => dinsert d (phrases.get ⟨i, h⟩) t
        | none => d
    | _ => d
  else d

def processList (phrases : List String) :
    List JValue → ℕ → List (String × JValue) → List (String × JValue)
  | [], _, d => d
  | v :: rest, i, d =>
    processList phrases rest (i + 1) (handleListItem d phrases i v)

/-- One member of a decoded JSON *object* response
(`for original, translation in translated_items.items()`); `.error ()`
is an uncaught `KeyError`, `ValueError` or `IndexError` inside the
loop body. -/
def handleDictItem (phrases : List String) (d : List (String × JValue))
    (k : String) (v : JValue) : Except Unit (List (String × JValue)) :=
  if k ∈ phrases then .ok (dinsert d k v)
  else
    match v with
    | .obj fs =>
      if (dget fs "text").isSome then
        match dget fs "text" with
        | some (.str s) =>
          if s ∈ phrases then
            match dget fs "translation" with
            | some t => .ok (dinsert d s t)
            | none => .error ()
          else .ok d
        | _ => .ok d
      else handleDigitKey phrases d k v
    | _ => handleDigitKey phrases d k v
where
  handleDigitKey (phrases : List String) (d : List (String × JValue))
      (k : String) (v : JValue) : Except Unit (List (String × JValue)) :=
    if pyIsDigit k then
      match pyInt? k with
      | none => .error ()
      | some n =>
        let idx : ℤ := (n : ℤ) - 1
        if idx < (phrases.length : ℤ) then
          match pyListGet phrases idx with
          | some p => .ok (dinsert d p v)
          | none => .error ()
        else .ok d
    else .ok d

def processObj (phrases : List String) :
    List (String × JValue) → List (String × JValue) →
    Except Unit (List (String × JValue))
  | [], d => .ok d
  | (k, v) :: rest, d =>
    match handleDictItem phrases d k v with
    | .ok d' => processObj phrases rest d'
    | .error e => .error e

/-- Interpretation of the decoded payload by shape; decoded scalars
yield an empty mapping. -/
def interpretDecoded (v : JValue) (phrases : List String) :
    Except Unit (List (String × JValue)) :=
  match v with
  | .arr items => .ok (processList phrases items 0 [])
  | .obj items => processObj phrases items []
  | _ => .ok []

/-- The payload of an `InvalidJSONException`: the candidate string the
parser was working on. -/
structure InvalidJSON where
  jsonStr : String

/-- `TranslationProject._parse_batch_response(response, original_phrases)`. -/
def parseBatchResponse (response : String) (phrases : List String) :
    Except InvalidJSON (List (String × JValue)) :=
  let cand := extractCandidate response
  match jsonDecode cand with
  | none => .error ⟨cand⟩
  | some v =>
    match interpretDecoded v phrases with
    | .ok d => .ok d
    | .error _ => .error ⟨cand⟩

theorem processObj_append (phrases : List String)
    (l1 l2 : List (String × JValue)) (d : List (String × JValue)) :
    processObj phrases (l1 ++ l2) d =
      match processObj phrases l1 d with
      | .ok d' => processObj phrases l2 d'
      | .error e => .error e := by
  induction l1 generalizing d with
  | nil => simp [processObj]
  | cons p rest ih =>
    obtain ⟨k, v⟩ := p
    simp only [List.cons_append, processObj]
    cases handleDictItem phrases d k v with
    | ok d' => exact ih d'
    | error e => rfl

theorem processObj_preserve (phrases : List String) (k : String) :
    ∀ (l : List (String × JValue)) (d d' : List (String × JValue)),
    processObj phrases l d = .ok d' →
    (∀ p ∈ l, ∀ d₁ d₂,
      handleDictItem phrases d₁ p.1 p.2 = .ok d₂ → dget d₂ k = dget d₁ k) →
    dget d' k = dget d k := by
  intro l
  induction l with
  | nil =>
    intro d d' h _
    simp only [processObj] at h
    injection h with h1
    rw [h1]
  | cons p rest ih =>
    intro d d' h hpres
    obtain ⟨k', v⟩ := p
    simp only [processObj] at h
    cases hh : handleDictItem phrases d k' v with
    | ok d₀ =>
      rw [hh] at h
      have h1 := ih d₀ d' h (fun q hq => hpres q (List.mem_cons_of_mem _ hq))
      rw [h1, hpres (k', v) (List.mem_cons_self _ _) d d₀ hh]
    | error e => rw [hh] at h; exact Except.noConfusion h

theorem handleDictItem_mem (phrases : List String)
    (d : List (String × JValue)) (k : String) (v : JValue)
    (hk : k ∈ phrases) :
    handleDictItem phrases d k v = .ok (dinsert d k v) := by
  unfold handleDictItem
  rw [if_pos hk]

/-- C4 (amended): in the object-keyed-by-phrase shape, a key equal to
an original phrase is mapped by *direct lookup* to its raw JSON value —
even when that value is itself an object carrying a `text`/`translation`
pair, no resolution through it takes place and the stored value need
not be a string (first conjunct, assuming no later entry of the object
overwrites that phrase).  Resolution through a `text`/`translation`
value object happens only for keys that are not phrases: such an entry
maps the phrase named by the object's `text` field to the object's
`translation` field (second conjunct). -/
theorem C4_object_keyed_by_phrase (phrases : List String)
    (pre post : List (String × JValue)) (k : String) (v : JValue)
    (d : List (String × JValue))
    (hk : k ∈ phrases)
    (hok : interpretDecoded (.obj (pre ++ (k, v) :: post)) phrases = .ok d)
    (hpost : ∀ p ∈ post, ∀ d₁ d₂,
      handleDictItem phrases d₁ p.1 p.2 = .ok d₂ → dget d₂ k = dget d₁ k) :
    dget d k = some v ∧
    (∀ k' fs s t d₀, k' ∉ phrases → dget fs "text" = some (.str s) →
      s ∈ phrases → dget fs "translation" = some t →
      handleDictItem phrases d₀ k' (.obj fs) = .ok (dinsert d₀ s t)) := by
  constructor
  · have hobj : processObj phrases (pre ++ (k, v) :: post) [] = .ok d := hok
    rw [processObj_append] at hobj
    cases hpre : processObj phrases pre [] with
    | error e => rw [hpre] at hobj; exact Except.noConfusion hobj
    | ok d₀ =>
      rw [hpre] at hobj
      simp only [processObj, handleDictItem_mem phrases d₀ k v hk] at hobj
      have h1 := processObj_preserve phrases k post (dinsert d₀ k v) d hobj
        hpost
      rw [h1, dget_dinsert_self]
  · intro k' fs s t d₀ hk' htext hs htr
    simp [handleDictItem, hk', htext, hs, htr]

/-- Witness for C4 at a concrete input. -/
theorem C4_object_keyed_by_phrase_witness :
    dget [("Hello", JValue.str "Hola")] "Hello" = some (.str "Hola") ∧
    (∀ k' fs s t d₀, k' ∉ ["Hello"] → dget fs "text" = some (.str s) →
      s ∈ ["Hello"] → dget fs "translation" = some t →
      handleDictItem ["Hello"] d₀ k' (.obj fs) = .ok (dinsert d₀ s t)) :=
  C4_object_keyed_by_phrase ["Hello"] [] [] "Hello" (.str "Hola")
    [("Hello", JValue.str "Hola")] (by simp) (by rfl)
    (by intro p hp; exact absurd hp (List.not_mem_nil p))

/-- C4 counterexample: with phrases `["Hello"]` and payload
`{"Hello": {"text": "Hello", "translation": "Hola"}}`, the parser maps
`"Hello"` to the raw value *object*, not to the translated string —
refuting both "resolve through it" and "always maps phrases to
translated strings". -/
theorem C4_counterexample :
    parseBatchResponse
        "\x7b\"Hello\": \x7b\"text\": \"Hello\", \"translation\": \"Hola\"\x7d\x7d"
        ["Hello"] =
      .ok [("Hello",
        JValue.obj [("text", .str "Hello"), ("translation", .str "Hola")])] ∧
    (∀ s : String,
      JValue.obj [("text", .str "Hello"), ("translation", .str "Hola")] ≠
        JValue.str s) :=
  ⟨by rfl, fun s h => JValue.noConfusion h⟩

/-- C5 (amended): the parser selects a single candidate payload
(fenced code block content if present, else the first JSON
array/object, else the whole text — `extractCandidate`), and raises
`InvalidJSONException` carrying exactly that candidate string when the
candidate fails to decode as JSON *or* when a post-decode
interpretation error occurs (a non-phrase key whose value object's
`text` names a phrase but lacks `"translation"`, an `isdigit` key on
which `int()` raises because a digit has no decimal value, or an
out-of-range numeric key); a successfully decoded and interpreted
payload is returned as the (possibly partial, possibly empty) mapping,
which is not an error. -/
theorem C5_parser_error_contract (response : String)
    (phrases : List String) :
    (jsonDecode (extractCandidate response) = none →
      parseBatchResponse response phrases =
        .error ⟨extractCandidate response⟩) ∧
    (∀ v d, jsonDecode (extractCandidate response) = some v →
      interpretDecoded v phrases = .ok d →
      parseBatchResponse response phrases = .ok d) ∧
    (∀ v, jsonDecode (extractCandidate response) = some v →
      interpretDecoded v phrases = .error () →
      parseBatchResponse response phrases =
        .error ⟨extractCandidate response⟩) ∧
    (∀ e, parseBatchResponse response phrases = .error e →
      e.jsonStr = extractCandidate response) := by
  refine ⟨?_, ?_, ?_, ?_⟩
  · intro h
    simp only [parseBatchResponse, h]
  · intro v d hv hd
    simp only [parseBatchResponse, hv, hd]
  · intro v hv he
    simp only [parseBatchResponse, hv, he]
  · intro e he
    cases hj : jsonDecode (extractCandidate response) with
    | none =>
      simp only [parseBatchResponse, hj] at he
      injection he with h1
      rw [← h1]
    | some v =>
      cases hi : interpretDecoded v phrases with
      | ok d =>
        simp only [parseBatchResponse, hj, hi] at he
        exact Except.noConfusion he
      | error u =>
        simp only [parseBatchResponse, hj, hi] at he
        injection he with h1
        rw [← h1]

/-- Witness for C5 at a concrete input: an undecodable reply raises
with the whole reply as the candidate. -/
theorem C5_parser_error_contract_witness :
    parseBatchResponse "junk, no json here" ["Hello"] =
      .error ⟨extractCandidate "junk, no json here"⟩ :=
  (C5_parser_error_contract "junk, no json here" ["Hello"]).1 (by rfl)

/-- C5 counterexample: the "if and only if" direction fails — payload
`{"x": {"text": "Hello"}}` decodes as valid JSON, yet the parser raises
`InvalidJSONException` (the `KeyError` on the missing `"translation"`
is swallowed by the same handler). -/
theorem C5_counterexample :
    (jsonDecode (extractCandidate "\x7b\"x\": \x7b\"text\": \"Hello\"\x7d\x7d")).isSome
      = true ∧
    parseBatchResponse "\x7b\"x\": \x7b\"text\": \"Hello\"\x7d\x7d" ["Hello"] =
      .error ⟨"\x7b\"x\": \x7b\"text\": \"Hello\"\x7d\x7d"⟩ :=
  ⟨by rfl, by rfl⟩

/-! ### `TranslationProject.translate`
(src/lib/TranslationProject.py, 388–567)

A CSV row is reduced to its base-language cell, destination-language
cell and context cell.  The whole per-batch pipeline of
`_process_batch` — prompt building, `translate_async`, parsing and the
one repair round-trip — is abstracted into a batch oracle
`List String → Except Unit (List (String × String))`: `.error ()` is a
driver exception or an unrecoverable parse failure (both of which make
`_process_batch` skip the batch), `.ok m` is the `batch_translations`
mapping handed to `_update_translations_from_batch`.  Saving inside
`_process_batch` sits inside its `try` and cannot abort the run; the
unconditional final saves of `translate` are modelled by `saveErr` in
`translateRun`. -/

structure Row where
  src : String
  dst : String
  ctx : String

abbrev BatchOracle := List String → Except Unit (List (String × String))

structure TState where
  rows : List Row
  progress : List (String × String)
  pending : List String
  pendingIdx : List ℕ
  pendingBytes : ℕ
  dispatched : List (List String)

/-- In-place update of one row (`translations[i][dst_language] = t`). -/
def modifyRow (rows : List Row) (i : ℕ) (f : Row → Row) : List Row :=
  match rows, i with
  | [], _ => []
  | r :: rest, 0 => f r :: rest
  | r :: rest, n + 1 => r :: modifyRow rest n f

/-- `TranslationProject._update_translations_from_batch`: walk the
batch phrases with their row indices; every phrase present in the
batch mapping updates its row's destination cell and the progress
dict. -/
def applyUpdates (m : List (String × String)) :
    List String → List ℕ → List Row → List (String × String) →
    List Row × List (String × String)
  | [], _, rows, progress => (rows, progress)
  | _ :: _, [], rows, progress => (rows, progress)
  | p :: ps, i :: is, rows, progress =>
    match dget m p with
    | some t =>
      applyUpdates m ps is (modifyRow rows i (fun r => { r with dst := t }))
        (dinsert progress p t)
    | none => applyUpdates m ps is rows progress

/-- `TranslationProject._process_batch` on the accumulated pending
batch: dispatch it through the oracle; on success merge the returned
mapping, on failure leave the state untouched (the batch is skipped). -/
def processBatch (oracle : BatchOracle) (st : TState) : TState :=
  if st.pending.isEmpty then st
  else
    let st1 := { st with dispatched := st.dispatched ++ [st.pending] }
    match oracle st.pending with
    | .ok m =>
      let rp := applyUpdates m st1.pending st1.pendingIdx st1.rows
        st1.progress
      { st1 with rows := rp.1, progress := rp.2 }
    | .error _ => st1

/-- The `for i, row in enumerate(translations)` loop of `translate`,
over the list of remaining row indices. -/
def translateLoop (oracle : BatchOracle) (batchSize maxBytes : ℕ) :
    List ℕ → TState → TState
  | [], st => st
  | i :: rest, st =>
    match st.rows.get? i with
    | none => translateLoop oracle batchSize maxBytes rest st
    | some row =>
      if row.src = "" then
        -- Skip empty source phrases
        translateLoop oracle batchSize maxBytes rest st
      else if row.dst ≠ "" then
        -- Already translated: backfill the progress cache if needed
        let st1 :=
          if (dget st.progress row.src).isSome then st
          else { st with progress := dinsert st.progress row.src row.dst }
        translateLoop oracle batchSize maxBytes rest st1
      else
        match dget st.progress row.src with
        | some t =>
          -- Cached translation: write it into the row
          translateLoop oracle batchSize maxBytes rest
            { st with rows :=
                modifyRow st.rows i (fun r => { r with dst := t }) }
        | none =>
          -- Enqueue into the current batch, flush when a limit is hit
          let st1 : TState :=
            { st with
              pending := st.pending ++ [row.src]
              pendingIdx := st.pendingIdx ++ [i]
              pendingBytes := st.pendingBytes + row.src.utf8ByteSize }
          if batchSize ≤ st1.pending.length ∨ maxBytes ≤ st1.pendingBytes
          then
            let st2 := processBatch oracle st1
            translateLoop oracle batchSize maxBytes rest
              { st2 with pending := [], pendingIdx := [], pendingBytes := 0 }
          else
            translateLoop oracle batchSize maxBytes rest st1

/-- The body of `translate` after configuration: one pass over all
rows, then the trailing flush. -/
def translateCore (oracle : BatchOracle) (batchSize maxBytes : ℕ)
    (rows : List Row) (progress : List (String × String)) : TState :=
  processBatch oracle
    (translateLoop oracle batchSize maxBytes (List.range rows.length)
      ⟨rows, progress, [], [], 0, []⟩)

/-- The driver registry of `src/lib/llm/__init__.py`. -/
def knownModels : List String :=
  ["gemini", "grok", "openai",
   "openrouter-gemini-2.0-flash-lite-preview-02-05",
   "openrouter-grok-2-1212", "openrouter-grok-3-beta",
   "openrouter-deepseek-r1-free"]

inductive TErr where
  | config (msg : String)
  | storage (msg : String)

/-- `translate` including `get_driver` (configuration) and the final
unconditional saves (storage): an unknown model raises `ValueError`
before any batch is dispatched, and a failing save raises after the
loop has completed. -/
def translateRun (model : String) (oracle : BatchOracle)
    (batchSize maxBytes : ℕ) (rows : List Row)
    (progress : List (String × String)) (saveErr : Option String) :
    Except TErr TState :=
  if model ∈ knownModels then
    let st := translateCore oracle batchSize maxBytes rows progress
    match saveErr with
    | some e => .error (.storage e)
    | none => .ok st
  else .error (.config ("Unsupported model: " ++ model))

/-! ### Frame lemmas for the orchestration loop -/

theorem modifyRow_length (rows : List Row) (i : ℕ) (f : Row → Row) :
    (modifyRow rows i f).length = rows.length := by
  induction rows generalizing i with
  | nil => rfl
  | cons r rest ih =>
    cases i with
    | zero => rfl
    | succ n => simp [modifyRow, ih]

theorem modifyRow_get?_ne (rows : List Row) (i j : ℕ) (f : Row → Row)
    (h : j ≠ i) : (modifyRow rows i f).get? j = rows.get? j := by
  induction rows generalizing i j with
  | nil => rfl
  | cons r rest ih =>
    cases i with
    | zero =>
      cases j with
      | zero => exact absurd rfl h
      | succ m => simp [modifyRow]
    | succ n =>
      cases j with
      | zero => simp [modifyRow]
      | succ m => simpa [modifyRow] using ih n m (by omega)

theorem modifyRow_get?_self (rows : List Row) (i : ℕ) (f : Row → Row) :
    (modifyRow rows i f).get? i = (rows.get? i).map f := by
  induction rows generalizing i with
  | nil => rfl
  | cons r rest ih =>
    cases i with
    | zero => rfl
    | succ n => simpa [modifyRow] using ih n

theorem applyUpdates_progress_mono (m : List (String × String))
    (k : String) :
    ∀ (ps : List String) (is : List ℕ) (rows : List Row)
      (prog : List (String × String)),
    (dget prog k).isSome →
    (dget (applyUpdates m ps is rows prog).2 k).isSome := by
  intro ps
  induction ps with
  | nil => intro is rows prog h; simpa [applyUpdates] using h
  | cons p rest ih =>
    intro is rows prog h
    cases is with
    | nil => simpa [applyUpdates] using h
    | cons i irest =>
      cases hm : dget m p with
      | some t =>
        simp only [applyUpdates, hm]
        exact ih irest _ _ (dget_dinsert_isSome prog p k t h)
      | none =>
        simp only [applyUpdates, hm]
        exact ih irest _ _ h

theorem applyUpdates_progress_not_mem (m : List (String × String))
    (k : String) :
    ∀ (ps : List String) (is : List ℕ) (rows : List Row)
      (prog : List (String × String)),
    k ∉ ps →
    dget (applyUpdates m ps is rows prog).2 k = dget prog k := by
  intro ps
  induction ps with
  | nil => intro is rows prog _; simp [applyUpdates]
  | cons p rest ih =>
    intro is rows prog hk
    have hkp : k ≠ p := fun h => hk (h ▸ List.mem_cons_self _ _)
    have hkrest : k ∉ rest := fun h => hk (List.mem_cons_of_mem _ h)
    cases is with
    | nil => simp [applyUpdates]
    | cons i irest =>
      cases hm : dget m p with
      | some t =>
        simp only [applyUpdates, hm]
        rw [ih irest _ _ hkrest, dget_dinsert_ne prog p k t hkp]
      | none =>
        simp only [applyUpdates, hm]
        exact ih irest _ _ hkrest

theorem applyUpdates_rows_not_mem (m : List (String × String)) (j : ℕ) :
    ∀ (ps : List String) (is : List ℕ) (rows : List Row)
      (prog : List (String × String)),
    j ∉ is →
    (applyUpdates m ps is rows prog).1.get? j = rows.get? j := by
  intro ps
  induction ps with
  | nil => intro is rows prog _; simp [applyUpdates]
  | cons p rest ih =>
    intro is rows prog hj
    cases is with
    | nil => simp [applyUpdates]
    | cons i irest =>
      have hji : j ≠ i := fun h => hj (h ▸ List.mem_cons_self _ _)
      have hjrest : j ∉ irest := fun h => hj (List.mem_cons_of_mem _ h)
      cases hm : dget m p with
      | some t =>
        simp only [applyUpdates, hm]
        rw [ih irest _ _ hjrest, modifyRow_get?_ne _ _ _ _ hji]
      | none =>
        simp only [applyUpdates, hm]
        exact ih irest _ _ hjrest

theorem applyUpdates_rows_length (m : List (String × String)) :
    ∀ (ps : List String) (is : List ℕ) (rows : List Row)
      (prog : List (String × String)),
    (applyUpdates m ps is rows prog).1.length = rows.length := by
  intro ps
  induction ps with
  | nil => intro is rows prog; simp [applyUpdates]
  | cons p rest ih =>
    intro is rows prog
    cases is with
    | nil => simp [applyUpdates]
    | cons i irest =>
      cases hm : dget m p with
      | some t =>
        simp only [applyUpdates, hm]
        rw [ih irest _ _, modifyRow_length]
      | none =>
        simp only [applyUpdates, hm]
        exact ih irest _ _

theorem processBatch_progress_mono (oracle : BatchOracle) (st : TState)
    (k : String) (h : (dget st.progress k).isSome) :
    (dget (processBatch oracle st).progress k).isSome := by
  unfold processBatch
  by_cases hp : st.pending.isEmpty
  · rw [if_pos hp]; exact h
  · rw [if_neg hp]
    cases oracle st.pending with
    | ok m => exact applyUpdates_progress_mono m k _ _ _ _ h
    | error e => exact h

theorem processBatch_progress_not_mem (oracle : BatchOracle) (st : TState)
    (k : String) (h : k ∉ st.pending) :
    dget (processBatch oracle st).progress k = dget st.progress k := by
  unfold processBatch
  by_cases hp : st.pending.isEmpty
  · rw [if_pos hp]
  · rw [if_neg hp]
    cases oracle st.pending with
    | ok m => exact applyUpdates_progress_not_mem m k _ _ _ _ h
    | error e => rfl

theorem processBatch_rows_not_mem (oracle : BatchOracle) (st : TState)
    (j : ℕ) (h : j ∉ st.pendingIdx) :
    (processBatch oracle st).rows.get? j = st.rows.get? j := by
  unfold processBatch
  by_cases hp : st.pending.isEmpty
  · rw [if_pos hp]
  · rw [if_neg hp]
    cases oracle st.pending with
    | ok m => exact applyUpdates_rows_not_mem m j _ _ _ _ h
    | error e => rfl

theorem processBatch_pending (oracle : BatchOracle) (st : TState) :
    (processBatch oracle st).pending = st.pending ∧
    (processBatch oracle st).pendingIdx = st.pendingIdx := by
  unfold processBatch
  by_cases hp : st.pending.isEmpty
  · rw [if_pos hp]; exact ⟨rfl, rfl⟩
  · rw [if_neg hp]
    cases oracle st.pending with
    | ok m => exact ⟨rfl, rfl⟩
    | error e => exact ⟨rfl, rfl⟩

theorem processBatch_dispatched (oracle : BatchOracle) (st : TState) :
    (processBatch oracle st).dispatched =
      st.dispatched ++ (if st.pending.isEmpty then [] else [st.pending]) := by
  unfold processBatch
  by_cases hp : st.pending.isEmpty
  · rw [if_pos hp, if_pos hp]; simp
  · rw [if_neg hp, if_neg hp]
    cases oracle st.pending with
    | ok m => rfl
    | error e => rfl

theorem translateLoop_progress_mono (oracle : BatchOracle)
    (c mx : ℕ) :
    ∀ (is : List ℕ) (st : TState) (k : String),
    (dget st.progress k).isSome →
    (dget (translateLoop oracle c mx is st).progress k).isSome := by
  intro is
  induction is with
  | nil => intro st k h; exact h
  | cons i rest ih =>
    intro st k h
    cases hrow : st.rows.get? i with
    | none => simp only [translateLoop, hrow]; exact ih _ k h
    | some row =>
      simp only [translateLoop, hrow]
      by_cases hsrc : row.src = ""
      · rw [if_pos hsrc]; exact ih _ k h
      · rw [if_neg hsrc]
        by_cases hdst : row.dst ≠ ""
        · rw [if_pos hdst]
          by_cases hp : (dget st.progress row.src).isSome
          · rw [if_pos hp]; exact ih _ k h
          · rw [if_neg hp]
            exact ih _ k (dget_dinsert_isSome _ _ _ _ h)
        · rw [if_neg hdst]
          cases hc : dget st.progress row.src with
          | some t => exact ih _ k h
          | none =>
            by_cases hflush : c ≤ (st.pending ++ [row.src]).length ∨
                mx ≤ st.pendingBytes + row.src.utf8ByteSize
            · rw [if_pos hflush]
              exact ih _ k (processBatch_progress_mono oracle _ k h)
            · rw [if_neg hflush]
              exact ih _ k h

theorem mem_zip_right {γ : Type} (ps : List γ) (is : List ℕ) (j : ℕ)
    (hlen : ps.length = is.length) (hj : j ∈ is) :
    ∃ p, (p, j) ∈ ps.zip is := by
  induction is generalizing ps with
  | nil => cases hj
  | cons i irest ih =>
    cases ps with
    | nil => simp at hlen
    | cons p prest =>
      rcases List.mem_cons.mp hj with h | h
      · exact ⟨p, by simp [h]⟩
      · obtain ⟨q, hq⟩ := ih prest (by simpa using hlen) h
        exact ⟨q, List.mem_cons_of_mem _ hq⟩

/-- After `_update_translations_from_batch`, every row is either
untouched (and its index was not in the batch), still untranslated, or
its source phrase is present in the updated progress dict. -/
theorem applyUpdates_frame_or_settled (m : List (String × String)) :
    ∀ (ps : List String) (is : List ℕ) (rows : List Row)
      (prog : List (String × String)),
    ps.length = is.length → is.Nodup →
    (∀ pi ∈ ps.zip is, ∃ r, rows.get? pi.2 = some r ∧ r.src = pi.1 ∧
      r.dst = "") →
    ∀ j r', (applyUpdates m ps is rows prog).1.get? j = some r' →
      (j ∉ is ∧ rows.get? j = some r') ∨ r'.dst = "" ∨
      (dget (applyUpdates m ps is rows prog).2 r'.src).isSome := by
  intro ps
  induction ps with
  | nil =>
    intro is rows prog hlen _ _ j r' hget
    cases is with
    | nil => exact Or.inl ⟨by simp, hget⟩
    | cons i irest => simp at hlen
  | cons p prest ih =>
    intro is rows prog hlen hnodup hpair j r' hget
    cases is with
    | nil => simp at hlen
    | cons i irest =>
      have hlen' : prest.length = irest.length := by simpa using hlen
      have hnodup' : irest.Nodup := (List.nodup_cons.mp hnodup).2
      have hinotmem : i ∉ irest := (List.nodup_cons.mp hnodup).1
      obtain ⟨r₀, hr₀, hr₀src, hr₀dst⟩ :=
        hpair (p, i) (by simp [List.zip_cons_cons])
      cases hm : dget m p with
      | some t =>
        have hpair' : ∀ pi ∈ prest.zip irest,
            ∃ r, (modifyRow rows i (fun r => { r with dst := t })).get?
                pi.2 = some r ∧ r.src = pi.1 ∧ r.dst = "" := by
          intro pi hpi
          obtain ⟨r, hr, h1, h2⟩ :=
            hpair pi (by simp [List.zip_cons_cons, hpi])
          have hne : pi.2 ≠ i := by
            intro he
            exact hinotmem (he ▸ List.of_mem_zip hpi |>.2)
          exact ⟨r, by rwa [modifyRow_get?_ne _ _ _ _ hne], h1, h2⟩
        simp only [applyUpdates, hm] at hget ⊢
        rcases ih irest _ _ hlen' hnodup' hpair' j r' hget with
          ⟨hj, hrow⟩ | h | h
        · by_cases hji : j = i
          · subst hji
            rw [modifyRow_get?_self, hr₀] at hrow
            have hr' : r' = { r₀ with dst := t } := by
              injection hrow with h1; exact h1.symm
            refine Or.inr (Or.inr ?_)
            have : (dget (dinsert prog p t) r'.src).isSome := by
              rw [hr', hr₀src]
              simp [dget_dinsert_self]
            exact applyUpdates_progress_mono m r'.src prest irest _ _ this
          · refine Or.inl ⟨?_, ?_⟩
            · intro hmem
              rcases List.mem_cons.mp hmem with h | h
              · exact hji h
              · exact hj h
            · rwa [modifyRow_get?_ne _ _ _ _ hji] at hrow
        · exact Or.inr (Or.inl h)
        · exact Or.inr (Or.inr h)
      | none =>
        simp only [applyUpdates, hm] at hget ⊢
        rcases ih irest _ _ hlen' hnodup' (fun pi hpi =>
          hpair pi (by simp [List.zip_cons_cons, hpi])) j r' hget with
          ⟨hj, hrow⟩ | h | h
        · by_cases hji : j = i
          · subst hji
            rw [hr₀] at hrow
            have hr' : r' = r₀ := by injection hrow with h1; exact h1.symm
            exact Or.inr (Or.inl (hr' ▸ hr₀dst))
          · refine Or.inl ⟨?_, hrow⟩
            intro hmem
            rcases List.mem_cons.mp hmem with h | h
            · exact hji h
            · exact hj h
        · exact Or.inr (Or.inl h)
        · exact Or.inr (Or.inr h)

/-- Lifting of `applyUpdates_frame_or_settled` to `_process_batch`. -/
theorem processBatch_frame_or_settled (oracle : BatchOracle) (st : TState)
    (hlen : st.pending.length = st.pendingIdx.length)
    (hnodup : st.pendingIdx.Nodup)
    (hpair : ∀ pi ∈ st.pending.zip st.pendingIdx,
      ∃ r, st.rows.get? pi.2 = some r ∧ r.src = pi.1 ∧ r.dst = "") :
    ∀ j r', (processBatch oracle st).rows.get? j = some r' →
      (j ∉ st.pendingIdx ∧ st.rows.get? j = some r') ∨ r'.dst = "" ∨
      (dget (processBatch oracle st).progress r'.src).isSome := by
  intro j r' hget
  unfold processBatch at hget ⊢
  by_cases hp : st.pending.isEmpty
  · rw [if_pos hp] at hget ⊢
    have : st.pendingIdx = [] := by
      have h0 : st.pending = [] := List.isEmpty_iff.mp hp
      have := hlen
      rw [h0] at this
      exact List.eq_nil_of_length_eq_zero this.symm
    rw [this]
    exact Or.inl ⟨by simp, hget⟩
  · rw [if_neg hp] at hget ⊢
    cases horacle : oracle st.pending with
    | ok m =>
      rw [horacle] at hget
      dsimp only at hget ⊢
      exact applyUpdates_frame_or_settled m st.pending st.pendingIdx
        st.rows st.progress hlen hnodup hpair j r' hget
    | error e =>
      rw [horacle] at hget
      dsimp only at hget ⊢
      by_cases hj : j ∈ st.pendingIdx
      · obtain ⟨p, hpz⟩ := mem_zip_right st.pending st.pendingIdx j hlen hj
        obtain ⟨r, hr, _, hrdst⟩ := hpair (p, j) hpz
        rw [hget] at hr
        have hrr : r' = r := Option.some.inj hr
        exact Or.inr (Or.inl (hrr ▸ hrdst))
      · exact Or.inl ⟨hj, hget⟩

theorem nodup_append_singleton (l : List ℕ) (a : ℕ) (h1 : l.Nodup)
    (h2 : a ∉ l) : (l ++ [a]).Nodup := by
  simp [List.nodup_append, h1, h2]

/-- Inductive invariant of the `translate` loop: every already-settled
row with a non-empty source and a non-empty destination has its phrase
in the progress dict, and the pending batch pairs phrases with the
fresh rows they came from. -/
structure SettledInv (remaining : List ℕ) (st : TState) : Prop where
  settled : ∀ j r, st.rows.get? j = some r → j ∉ remaining →
    j ∉ st.pendingIdx → r.src ≠ "" → r.dst ≠ "" →
    (dget st.progress r.src).isSome
  pairLen : st.pending.length = st.pendingIdx.length
  pair : ∀ pi ∈ st.pending.zip st.pendingIdx,
    ∃ r, st.rows.get? pi.2 = some r ∧ r.src = pi.1 ∧ r.src ≠ "" ∧
      r.dst = ""
  pendDisj : ∀ j ∈ st.pendingIdx, j ∉ remaining
  pendNodup : st.pendingIdx.Nodup

theorem translateLoop_settledInv (oracle : BatchOracle) (c mx : ℕ) :
    ∀ (is : List ℕ) (st : TState), is.Nodup → SettledInv is st →
    SettledInv [] (translateLoop oracle c mx is st) := by
  intro is
  induction is with
  | nil => intro st _ hI; exact hI
  | cons i rest ih =>
    intro st hnd hI
    have hir : i ∉ rest := (List.nodup_cons.mp hnd).1
    have hnd' : rest.Nodup := (List.nodup_cons.mp hnd).2
    have hiidx : i ∉ st.pendingIdx := fun h =>
      hI.pendDisj i h (List.mem_cons_self _ _)
    cases hrow : st.rows.get? i with
    | none =>
      simp only [translateLoop, hrow]
      refine ih st hnd' ⟨?_, hI.pairLen, hI.pair, ?_, hI.pendNodup⟩
      · intro j r hget hj hpidx hsrc hdst
        by_cases hji : j = i
        · subst hji; rw [hrow] at hget; exact Option.noConfusion hget
        · exact hI.settled j r hget
            (fun h => (List.mem_cons.mp h).elim hji hj) hpidx hsrc hdst
      · exact fun j h => fun hm => hI.pendDisj j h (List.mem_cons_of_mem _ hm)
    | some row =>
      simp only [translateLoop, hrow]
      by_cases hsrc0 : row.src = ""
      · rw [if_pos hsrc0]
        refine ih st hnd' ⟨?_, hI.pairLen, hI.pair, ?_, hI.pendNodup⟩
        · intro j r hget hj hpidx hsrc hdst
          by_cases hji : j = i
          · subst hji
            rw [hrow] at hget
            have : r = row := Option.some.inj hget.symm
            exact absurd (this ▸ hsrc0) hsrc
          · exact hI.settled j r hget
              (fun h => (List.mem_cons.mp h).elim hji hj) hpidx hsrc hdst
        · exact fun j h hm => hI.pendDisj j h (List.mem_cons_of_mem _ hm)
      · rw [if_neg hsrc0]
        by_cases hdst0 : row.dst ≠ ""
        · rw [if_pos hdst0]
          by_cases hp : (dget st.progress row.src).isSome
          · rw [if_pos hp]
            refine ih st hnd' ⟨?_, hI.pairLen, hI.pair, ?_, hI.pendNodup⟩
            · intro j r hget hj hpidx hsrc hdst
              by_cases hji : j = i
              · subst hji
                rw [hrow] at hget
                have : r = row := Option.some.inj hget.symm
                exact this ▸ hp
              · exact hI.settled j r hget
                  (fun h => (List.mem_cons.mp h).elim hji hj) hpidx hsrc hdst
            · exact fun j h hm =>
                hI.pendDisj j h (List.mem_cons_of_mem _ hm)
          · rw [if_neg hp]
            refine ih _ hnd' ⟨?_, hI.pairLen, hI.pair, ?_, hI.pendNodup⟩
            · intro j r hget hj hpidx hsrc hdst
              by_cases hji : j = i
              · subst hji
                rw [hrow] at hget
                have : r = row := Option.some.inj hget.symm
                subst this
                simp [dget_dinsert_self]
              · exact dget_dinsert_isSome _ _ _ _
                  (hI.settled j r hget
                    (fun h => (List.mem_cons.mp h).elim hji hj) hpidx hsrc
                    hdst)
            · exact fun j h hm =>
                hI.pendDisj j h (List.mem_cons_of_mem _ hm)
        · rw [if_neg hdst0]
          have hdst0' : row.dst = "" := by
            by_contra h; exact hdst0 h
          cases hc : dget st.progress row.src with
          | some t =>
            refine ih _ hnd' ⟨?_, hI.pairLen, ?_, ?_, hI.pendNodup⟩
            · intro j r hget hj hpidx hsrc hdst
              by_cases hji : j = i
              · subst hji
                rw [modifyRow_get?_self, hrow] at hget
                have : r = { row with dst := t } :=
                  Option.some.inj hget.symm
                subst this
                simp only
                rw [hc]
                rfl
              · rw [modifyRow_get?_ne _ _ _ _ hji] at hget
                exact hI.settled j r hget
                  (fun h => (List.mem_cons.mp h).elim hji hj) hpidx hsrc hdst
            · intro pi hpi
              obtain ⟨r, hr, h1, h2, h3⟩ := hI.pair pi hpi
              have hne : pi.2 ≠ i := fun he =>
                hiidx (he ▸ (List.of_mem_zip hpi).2)
              exact ⟨r, by rwa [modifyRow_get?_ne _ _ _ _ hne], h1, h2, h3⟩
            · exact fun j h hm =>
                hI.pendDisj j h (List.mem_cons_of_mem _ hm)
          | none =>
            have hpair1 : ∀ pi ∈ (st.pending ++ [row.src]).zip
                (st.pendingIdx ++ [i]),
                ∃ r, st.rows.get? pi.2 = some r ∧ r.src = pi.1 ∧
                  r.src ≠ "" ∧ r.dst = "" := by
              intro pi hpi
              rw [List.zip_append hI.pairLen] at hpi
              rcases List.mem_append.mp hpi with h | h
              · exact hI.pair pi h
              · have : pi = (row.src, i) := by simpa using h
                subst this
                exact ⟨row, hrow, rfl, hsrc0, hdst0'⟩
            have hlen1 : (st.pending ++ [row.src]).length =
                (st.pendingIdx ++ [i]).length := by
              simp [hI.pairLen]
            have hnodup1 : (st.pendingIdx ++ [i]).Nodup :=
              nodup_append_singleton _ _ hI.pendNodup hiidx
            by_cases hflush : c ≤ (st.pending ++ [row.src]).length ∨
                mx ≤ st.pendingBytes + row.src.utf8ByteSize
            · rw [if_pos hflush]
              set st1 : TState :=
                { st with
                  pending := st.pending ++ [row.src]
                  pendingIdx := st.pendingIdx ++ [i]
                  pendingBytes :=
                    st.pendingBytes + row.src.utf8ByteSize } with hst1
              refine ih _ hnd' ⟨?_, rfl, ?_, ?_, List.nodup_nil⟩
              · intro j r hget hj _ hsrc hdst
                have hget2 : (processBatch oracle st1).rows.get? j =
                    some r := hget
                rcases processBatch_frame_or_settled oracle st1 hlen1
                    hnodup1
                    (fun pi hpi => by
                      obtain ⟨r0, h0, h1, _, h3⟩ := hpair1 pi hpi
                      exact ⟨r0, h0, h1, h3⟩) j r hget2 with
                  ⟨hjidx, hrows⟩ | h | h
                · have hji : j ≠ i := fun he =>
                    hjidx (he ▸ List.mem_append.mpr
                      (Or.inr (List.mem_singleton.mpr rfl)))
                  have hjold : j ∉ st.pendingIdx := fun hm =>
                    hjidx (List.mem_append.mpr (Or.inl hm))
                  have := hI.settled j r hrows
                    (fun h => (List.mem_cons.mp h).elim hji hj) hjold hsrc
                    hdst
                  exact processBatch_progress_mono oracle st1 r.src this
                · exact absurd h hdst
                · exact h
              · intro pi hpi
                simp at hpi
              · intro j h
                simp at h
            · rw [if_neg hflush]
              refine ih _ hnd' ⟨?_, hlen1, hpair1, ?_, hnodup1⟩
              · intro j r hget hj hpidx hsrc hdst
                by_cases hji : j = i
                · subst hji
                  exact absurd (List.mem_append.mpr
                    (Or.inr (List.mem_singleton.mpr rfl))) hpidx
                · exact hI.settled j r hget
                    (fun h => (List.mem_cons.mp h).elim hji hj)
                    (fun hm =>
                      hpidx (List.mem_append.mpr (Or.inl hm))) hsrc hdst
              · intro j hjm
                rcases List.mem_append.mp hjm with h | h
                · exact fun hm =>
                    hI.pendDisj j h (List.mem_cons_of_mem _ hm)
                · have : j = i := List.mem_singleton.mp h
                  subst this
                  exact hir

theorem settledInv_initial (rows : List Row)
    (prog : List (String × String)) :
    SettledInv (List.range rows.length)
      ⟨rows, prog, [], [], 0, []⟩ := by
  refine ⟨?_, rfl, ?_, ?_, List.nodup_nil⟩
  · intro j r hget hj _ _ _
    have hget' : rows.get? j = some r := hget
    have hlt : j < rows.length := by
      by_contra h
      rw [List.get?_eq_none.mpr (by omega)] at hget'
      exact Option.noConfusion hget'
    exact absurd (List.mem_range.mpr hlt) hj
  · intro pi hpi
    simp at hpi
  · intro j h
    simp at h

/-- C9: progress-cache monotonicity across a `translate` run — no key
present in the cache at the start is ever removed, and at the end every
row holding a translation (non-empty source and destination) has an
entry for its source phrase in the cache, whether the translation was
freshly produced by a batch, backfilled from an already-filled
destination cell, or applied from the cache itself. -/
theorem C9_progress_cache_monotone (oracle : BatchOracle) (c mx : ℕ)
    (rows : List Row) (prog : List (String × String)) :
    (∀ k, (dget prog k).isSome →
      (dget (translateCore oracle c mx rows prog).progress k).isSome) ∧
    (∀ r ∈ (translateCore oracle c mx rows prog).rows,
      r.src ≠ "" → r.dst ≠ "" →
      (dget (translateCore oracle c mx rows prog).progress r.src).isSome)
    := by
  have hInv : SettledInv []
      (translateLoop oracle c mx (List.range rows.length)
        ⟨rows, prog, [], [], 0, []⟩) :=
    translateLoop_settledInv oracle c mx _ _ (List.nodup_range _)
      (settledInv_initial rows prog)
  constructor
  · intro k h
    exact processBatch_progress_mono oracle _ k
      (translateLoop_progress_mono oracle c mx _ _ k h)
  · intro r hr hsrc hdst
    obtain ⟨j, hj⟩ := List.mem_iff_get?.mp hr
    rcases processBatch_frame_or_settled oracle _ hInv.pairLen
        hInv.pendNodup
        (fun pi hpi => by
          obtain ⟨r0, h0, h1, _, h3⟩ := hInv.pair pi hpi
          exact ⟨r0, h0, h1, h3⟩) j r hj with
      ⟨hjidx, hrows⟩ | h | h
    · exact processBatch_progress_mono oracle _ r.src
        (hInv.settled j r hrows (by simp) hjidx hsrc hdst)
    · exact absurd h hdst
    · exact h

/-- Witness for C9 at a concrete input. -/
theorem C9_progress_cache_monotone_witness :
    (dget (translateCore (fun _ => .error ()) 50 8192 []
      [("k", "v")]).progress "k").isSome :=
  (C9_progress_cache_monotone (fun _ => .error ()) 50 8192 []
    [("k", "v")]).1 "k" (by simp [dget])

/-- C7: propagation policy of `translate` — per-batch failures (driver
transport errors after retry exhaustion, or output still unparseable
after the repair round-trip; both `.error` outcomes of the batch
oracle) never abort the run: with a known model and working storage the
run always completes, whatever the oracle answers, and any error that
does propagate is a configuration error (unknown model) or a storage
error (the final saves).  The concrete third conjunct shows a failed
first batch being abandoned while the second batch is still dispatched
and merged. -/
theorem C7_propagation_policy (model : String) (oracle : BatchOracle)
    (batchSize maxBytes : ℕ) (rows : List Row)
    (progress : List (String × String)) (saveErr : Option String) :
    (∀ e, translateRun model oracle batchSize maxBytes rows progress
        saveErr = .error e →
      (∃ s, e = .config s) ∨ (∃ s, e = .storage s)) ∧
    (model ∈ knownModels → saveErr = none →
      translateRun model oracle batchSize maxBytes rows progress saveErr =
        .ok (translateCore oracle batchSize maxBytes rows progress)) ∧
    (translateCore
        (fun b => if b = ["a", "b"] then .error ()
          else .ok [("c", "C"), ("d", "D")])
        2 100 [⟨"a", "", ""⟩, ⟨"b", "", ""⟩, ⟨"c", "", ""⟩, ⟨"d", "", ""⟩]
        [] =
      ⟨[⟨"a", "", ""⟩, ⟨"b", "", ""⟩, ⟨"c", "C", ""⟩, ⟨"d", "D", ""⟩],
       [("c", "C"), ("d", "D")], [], [], 0, [["a", "b"], ["c", "d"]]⟩) := by
  refine ⟨?_, ?_, by rfl⟩
  · intro e he
    unfold translateRun at he
    by_cases hm : model ∈ knownModels
    · rw [if_pos hm] at he
      cases hs : saveErr with
      | none => rw [hs] at he; exact Except.noConfusion he
      | some s =>
        rw [hs] at he
        injection he with h1
        exact Or.inr ⟨s, h1.symm⟩
    · rw [if_neg hm] at he
      injection he with h1
      exact Or.inl ⟨"Unsupported model: " ++ model, h1.symm⟩
  · intro hm hs
    subst hs
    simp [translateRun, hm]

/-- Witness for C7 at a concrete input. -/
theorem C7_propagation_policy_witness :
    translateRun "gemini" (fun _ => .error ()) 50 8192
      [⟨"a", "", ""⟩] [] none =
      .ok (translateCore (fun _ => .error ()) 50 8192 [⟨"a", "", ""⟩] []) :=
  (C7_propagation_policy "gemini" (fun _ => .error ()) 50 8192
    [⟨"a", "", ""⟩] [] none).2.1 (by simp [knownModels]) rfl

/-- Inductive invariant for C10: a designated row with an empty source
phrase is never touched, the empty phrase is never pending, dispatched
or cached. -/
structure EmptyInv (prog0 : List (String × String)) (i₀ : ℕ) (r₀ : Row)
    (st : TState) : Prop where
  row : st.rows.get? i₀ = some r₀
  idx : i₀ ∉ st.pendingIdx
  pend : "" ∉ st.pending
  disp : ∀ b ∈ st.dispatched, "" ∉ b
  prg : dget st.progress "" = dget prog0 ""

theorem processBatch_emptyInv (oracle : BatchOracle)
    (prog0 : List (String × String)) (i₀ : ℕ) (r₀ : Row) (st : TState)
    (hI : EmptyInv prog0 i₀ r₀ st) :
    EmptyInv prog0 i₀ r₀ (processBatch oracle st) := by
  refine ⟨?_, ?_, ?_, ?_, ?_⟩
  · rw [processBatch_rows_not_mem oracle st i₀ hI.idx]
    exact hI.row
  · rw [(processBatch_pending oracle st).2]
    exact hI.idx
  · rw [(processBatch_pending oracle st).1]
    exact hI.pend
  · rw [processBatch_dispatched oracle st]
    intro b hb
    rcases List.mem_append.mp hb with h | h
    · exact hI.disp b h
    · by_cases hp : st.pending.isEmpty
      · rw [if_pos hp] at h; cases h
      · rw [if_neg hp] at h
        have : b = st.pending := List.mem_singleton.mp h
        exact this ▸ hI.pend
  · rw [processBatch_progress_not_mem oracle st "" hI.pend]
    exact hI.prg

theorem translateLoop_emptyInv (oracle : BatchOracle) (c mx : ℕ)
    (prog0 : List (String × String)) (i₀ : ℕ) (r₀ : Row)
    (hsrc0 : r₀.src = "") :
    ∀ (is : List ℕ) (st : TState), EmptyInv prog0 i₀ r₀ st →
    EmptyInv prog0 i₀ r₀ (translateLoop oracle c mx is st) := by
  intro is
  induction is with
  | nil => intro st hI; exact hI
  | cons i rest ih =>
    intro st hI
    cases hrow : st.rows.get? i with
    | none => simp only [translateLoop, hrow]; exact ih st hI
    | some row =>
      simp only [translateLoop, hrow]
      by_cases hsrc : row.src = ""
      · rw [if_pos hsrc]; exact ih st hI
      · rw [if_neg hsrc]
        have hii : i ≠ i₀ := by
          intro he
          subst he
          rw [hI.row] at hrow
          exact hsrc (Option.some.inj hrow ▸ hsrc0)
        by_cases hdst : row.dst ≠ ""
        · rw [if_pos hdst]
          by_cases hp : (dget st.progress row.src).isSome
          · rw [if_pos hp]; exact ih _ hI
          · rw [if_neg hp]
            refine ih _ ⟨hI.row, hI.idx, hI.pend, hI.disp, ?_⟩
            rw [dget_dinsert_ne _ _ _ _ (fun h => hsrc h.symm)]
            exact hI.prg
        · rw [if_neg hdst]
          cases hc : dget st.progress row.src with
          | some t =>
            refine ih _ ⟨?_, hI.idx, hI.pend, hI.disp, hI.prg⟩
            rw [modifyRow_get?_ne _ _ _ _ (fun h => hii h.symm)]
            exact hI.row
          | none =>
            have hI1 : EmptyInv prog0 i₀ r₀
                { st with
                  pending := st.pending ++ [row.src]
                  pendingIdx := st.pendingIdx ++ [i]
                  pendingBytes :=
                    st.pendingBytes + row.src.utf8ByteSize } := by
              refine ⟨hI.row, ?_, ?_, hI.disp, hI.prg⟩
              · intro h
                rcases List.mem_append.mp h with h | h
                · exact hI.idx h
                · exact hii (List.mem_singleton.mp h).symm
              · intro h
                rcases List.mem_append.mp h with h | h
                · exact hI.pend h
                · exact hsrc (List.mem_singleton.mp h).symm
            by_cases hflush : c ≤ (st.pending ++ [row.src]).length ∨
                mx ≤ st.pendingBytes + row.src.utf8ByteSize
            · rw [if_pos hflush]
              have hI2 := processBatch_emptyInv oracle prog0 i₀ r₀ _ hI1
              refine ih _ ⟨hI2.row, ?_, ?_, hI2.disp, hI2.prg⟩
              · simp
              · simp
            · rw [if_neg hflush]
              exact ih _ hI1

/-- C10: rows whose base-language cell is the empty string are inert —
the row is never enqueued into any dispatched batch, its cells are left
untouched by the whole run, and the empty phrase never enters the
progress cache. -/
theorem C10_empty_source_inert (oracle : BatchOracle) (c mx : ℕ)
    (rows : List Row) (prog : List (String × String)) (i₀ : ℕ) (r₀ : Row)
    (hr : rows.get? i₀ = some r₀) (hsrc : r₀.src = "") :
    (translateCore oracle c mx rows prog).rows.get? i₀ = some r₀ ∧
    (∀ b ∈ (translateCore oracle c mx rows prog).dispatched, "" ∉ b) ∧
    dget (translateCore oracle c mx rows prog).progress "" =
      dget prog "" := by
  have hI0 : EmptyInv prog i₀ r₀ ⟨rows, prog, [], [], 0, []⟩ := by
    refine ⟨hr, ?_, ?_, ?_, rfl⟩ <;> simp
  have hI := processBatch_emptyInv oracle prog i₀ r₀ _
    (translateLoop_emptyInv oracle c mx prog i₀ r₀ hsrc
      (List.range rows.length) _ hI0)
  exact ⟨hI.row, hI.disp, hI.prg⟩

/-- Witness for C10 at a concrete input. -/
theorem C10_empty_source_inert_witness :
    (translateCore (fun _ => .ok [("x", "y")]) 50 8192
      [⟨"", "keep", "ctx"⟩] []).rows.get? 0 = some ⟨"", "keep", "ctx"⟩ ∧
    (∀ b ∈ (translateCore (fun _ => .ok [("x", "y")]) 50 8192
      [⟨"", "keep", "ctx"⟩] []).dispatched, "" ∉ b) ∧
    dget (translateCore (fun _ => .ok [("x", "y")]) 50 8192
      [⟨"", "keep", "ctx"⟩] []).progress "" = dget [] "" :=
  C10_empty_source_inert (fun _ => .ok [("x", "y")]) 50 8192
    [⟨"", "keep", "ctx"⟩] [] 0 ⟨"", "keep", "ctx"⟩ rfl rfl

/-! ### The batch partition (C1)

`mkBatches` is the accumulation logic of `translate` (lines 443–481)
isolated on a plain phrase stream: append the phrase, add its UTF-8
byte size, flush when `count ≥ batch_size` or `bytes ≥ batch_max_bytes`
(the phrase that crossed the limit *included*), and flush the trailing
under-full batch at the end of the stream. -/

def bytesOf (l : List String) : ℕ := (l.map String.utf8ByteSize).sum

def mkBatchesGo (c mx : ℕ) : List String → List String → ℕ →
    List (List String)
  | [], acc, _ => if acc.isEmpty then [] else [acc]
  | p :: rest, acc, bytes =>
    let acc' := acc ++ [p]
    let bytes' := bytes + p.utf8ByteSize
    if c ≤ acc'.length ∨ mx ≤ bytes' then
      acc' :: mkBatchesGo c mx rest [] 0
    else
      mkBatchesGo c mx rest acc' bytes'

def mkBatches (c mx : ℕ) (ps : List String) : List (List String) :=
  mkBatchesGo c mx ps [] 0

theorem mkBatchesGo_join (c mx : ℕ) :
    ∀ (ps acc : List String) (bytes : ℕ),
    (mkBatchesGo c mx ps acc bytes).join = acc ++ ps := by
  intro ps
  induction ps with
  | nil =>
    intro acc bytes
    by_cases h : acc.isEmpty
    · simp [mkBatchesGo, h, List.isEmpty_iff.mp h]
    · simp [mkBatchesGo, h]
  | cons p rest ih =>
    intro acc bytes
    simp only [mkBatchesGo]
    by_cases h : c ≤ (acc ++ [p]).length ∨ mx ≤ bytes + p.utf8ByteSize
    · rw [if_pos h]
      simp [ih]
    · rw [if_neg h]
      simp [ih]

theorem bytesOf_append (a b : List String) :
    bytesOf (a ++ b) = bytesOf a + bytesOf b := by
  simp [bytesOf]

theorem bytesOf_dropLast_le (l : List String) :
    bytesOf l.dropLast ≤ bytesOf l := by
  by_cases h : l = []
  · subst h; simp
  · conv_rhs => rw [← List.dropLast_append_getLast h]
    rw [bytesOf_append]
    omega

theorem mkBatchesGo_bounds (c mx : ℕ) (hc : 1 ≤ c) (hm : 1 ≤ mx) :
    ∀ (ps acc : List String) (bytes : ℕ),
    acc.length < c → bytes = bytesOf acc → bytes < mx →
    ∀ b ∈ mkBatchesGo c mx ps acc bytes,
      b ≠ [] ∧ b.length ≤ c ∧ bytesOf b.dropLast < mx := by
  intro ps
  induction ps with
  | nil =>
    intro acc bytes hlen hb hbytes b hb'
    by_cases h : acc.isEmpty
    · simp [mkBatchesGo, h] at hb'
    · simp only [mkBatchesGo, h, if_false] at hb'
      have hba : b = acc := List.mem_singleton.mp hb'
      subst hba
      refine ⟨fun he => h (by simp [he]), by omega, ?_⟩
      calc bytesOf b.dropLast ≤ bytesOf b := bytesOf_dropLast_le b
        _ < mx := by omega
  | cons p rest ih =>
    intro acc bytes hlen hb hbytes b hb'
    simp only [mkBatchesGo] at hb'
    by_cases h : c ≤ (acc ++ [p]).length ∨ mx ≤ bytes + p.utf8ByteSize
    · rw [if_pos h] at hb'
      rcases List.mem_cons.mp hb' with hhd | htl
      · subst hhd
        refine ⟨by simp, ?_, ?_⟩
        · simp only [List.length_append, List.length_singleton]
          omega
        · rw [List.dropLast_concat]
          rw [hb] at hbytes
          exact hbytes
      · exact ih [] 0 (by simpa using hc) (by simp [bytesOf]) (by omega)
          b htl
    · rw [if_neg h] at hb'
      push_neg at h
      refine ih (acc ++ [p]) (bytes + p.utf8ByteSize) ?_ ?_ ?_ b hb'
      · have := h.1; simp only [List.length_append,
          List.length_singleton] at this ⊢; omega
      · rw [bytesOf_append, hb]; simp [bytesOf]
      · exact h.2

/-- Correspondence between a list of row indices still to process and
the phrases they will contribute: each index holds a fresh row whose
source is the matching phrase. -/
inductive RowsCorr (rows : List Row) : List ℕ → List String → Prop
  | nil : RowsCorr rows [] []
  | cons {i : ℕ} {p : String} {is : List ℕ} {ps : List String} {r : Row} :
      rows.get? i = some r → r.src = p → r.dst = "" →
      RowsCorr rows is ps → RowsCorr rows (i :: is) (p :: ps)

theorem rowsCorr_of_agree {rows rows' : List Row} :
    ∀ {is : List ℕ} {ps : List String}, RowsCorr rows is ps →
    (∀ j ∈ is, rows'.get? j = rows.get? j) → RowsCorr rows' is ps := by
  intro is ps h
  induction h with
  | nil => intro _; exact RowsCorr.nil
  | cons hget hsrc hdst _ ih =>
    intro hag
    refine RowsCorr.cons ?_ hsrc hdst (ih (fun j hj =>
      hag j (List.mem_cons_of_mem _ hj)))
    rw [hag _ (List.mem_cons_self _ _)]
    exact hget

theorem translateLoop_batches_bridge (oracle : BatchOracle) (c mx : ℕ) :
    ∀ (is : List ℕ) (ps : List String) (st : TState),
    RowsCorr st.rows is ps →
    is.Nodup → ps.Nodup →
    (∀ p ∈ ps, p ≠ "" ∧ dget st.progress p = none ∧ p ∉ st.pending) →
    (∀ j ∈ is, j ∉ st.pendingIdx) →
    (processBatch oracle (translateLoop oracle c mx is st)).dispatched =
      st.dispatched ++ mkBatchesGo c mx ps st.pending st.pendingBytes := by
  intro is
  induction is with
  | nil =>
    intro ps st hcorr _ _ _ _
    cases hcorr
    rw [translateLoop, processBatch_dispatched, mkBatchesGo]
  | cons i rest ih =>
    intro ps st hcorr hndi hndp hps hidx
    cases hcorr with
    | cons hget hsrc hdst hcorr' =>
      rename_i p ps' r
      have hp := hps p (List.mem_cons_self _ _)
      have hsrcne : r.src ≠ "" := fun h => hp.1 (hsrc ▸ h)
      simp only [translateLoop, hget]
      rw [if_neg hsrcne]
      have hdstne : ¬r.dst ≠ "" := fun h => h hdst
      rw [if_neg hdstne]
      have hcget : dget st.progress r.src = none := hsrc ▸ hp.2.1
      rw [hcget]
      have hndi' : rest.Nodup := (List.nodup_cons.mp hndi).2
      have hir : i ∉ rest := (List.nodup_cons.mp hndi).1
      have hndp' : ps'.Nodup := (List.nodup_cons.mp hndp).2
      have hpnotin : p ∉ ps' := (List.nodup_cons.mp hndp).1
      by_cases hflush : c ≤ (st.pending ++ [r.src]).length ∨
          mx ≤ st.pendingBytes + r.src.utf8ByteSize
      · rw [if_pos hflush]
        set st1 : TState :=
          { st with
            pending := st.pending ++ [r.src]
            pendingIdx := st.pendingIdx ++ [i]
            pendingBytes := st.pendingBytes + r.src.utf8ByteSize }
          with hst1
        set st2 := processBatch oracle st1 with hst2
        set st3 : TState :=
          { st2 with pending := [], pendingIdx := [], pendingBytes := 0 }
          with hst3
        have hrowsag : ∀ j ∈ rest, st3.rows.get? j = st.rows.get? j := by
          intro j hj
          have hjidx : j ∉ st1.pendingIdx := by
            intro hm
            rcases List.mem_append.mp hm with h | h
            · exact hidx j (List.mem_cons_of_mem _ hj) h
            · exact hir ((List.mem_singleton.mp h) ▸ hj)
          exact processBatch_rows_not_mem oracle st1 j hjidx
        have hcorr3 : RowsCorr st3.rows rest ps' :=
          rowsCorr_of_agree hcorr' hrowsag
        have hps3 : ∀ q ∈ ps', q ≠ "" ∧ dget st3.progress q = none ∧
            q ∉ st3.pending := by
          intro q hq
          have hq0 := hps q (List.mem_cons_of_mem _ hq)
          refine ⟨hq0.1, ?_, by simp [hst3]⟩
          have hqpend : q ∉ st1.pending := by
            intro hm
            rcases List.mem_append.mp hm with h | h
            · exact hq0.2.2 h
            · exact hpnotin ((hsrc ▸ List.mem_singleton.mp h) ▸ hq)
          have : st3.progress = st2.progress := rfl
          rw [this, hst2, processBatch_progress_not_mem oracle st1 q hqpend]
          exact hq0.2.1
        have hidx3 : ∀ j ∈ rest, j ∉ st3.pendingIdx := by
          intro j _ hm
          simp [hst3] at hm
        have hih := ih ps' st3 hcorr3 hndi' hndp' hps3 hidx3
        rw [hih]
        have hdisp3 : st3.dispatched = st.dispatched ++ [st.pending ++
            [r.src]] := by
          show st2.dispatched = _
          rw [hst2, processBatch_dispatched]
          have hne : ¬st1.pending.isEmpty = true := by
            simp [hst1]
          rw [if_neg hne]
        have hflushp : c ≤ (st.pending ++ [p]).length ∨
            mx ≤ st.pendingBytes + p.utf8ByteSize := by
          rw [hsrc] at hflush; exact hflush
        have hmb : mkBatchesGo c mx (p :: ps') st.pending st.pendingBytes =
            (st.pending ++ [p]) :: mkBatchesGo c mx ps' [] 0 := by
          rw [mkBatchesGo, if_pos hflushp]
        rw [hdisp3, hmb]
        simp [hst3, hsrc]
      · rw [if_neg hflush]
        set st1 : TState :=
          { st with
            pending := st.pending ++ [r.src]
            pendingIdx := st.pendingIdx ++ [i]
            pendingBytes := st.pendingBytes + r.src.utf8ByteSize }
          with hst1
        have hcorr1 : RowsCorr st1.rows rest ps' := hcorr'
        have hps1 : ∀ q ∈ ps', q ≠ "" ∧ dget st1.progress q = none ∧
            q ∉ st1.pending := by
          intro q hq
          have hq0 := hps q (List.mem_cons_of_mem _ hq)
          refine ⟨hq0.1, hq0.2.1, ?_⟩
          intro hm
          rcases List.mem_append.mp hm with h | h
          · exact hq0.2.2 h
          · exact hpnotin ((hsrc ▸ List.mem_singleton.mp h) ▸ hq)
        have hidx1 : ∀ j ∈ rest, j ∉ st1.pendingIdx := by
          intro j hj hm
          rcases List.mem_append.mp hm with h | h
          · exact hidx j (List.mem_cons_of_mem _ hj) h
          · exact hir ((List.mem_singleton.mp h) ▸ hj)
        have hih := ih ps' st1 hcorr1 hndi' hndp' hps1 hidx1
        rw [hih]
        have hflushp : ¬(c ≤ (st.pending ++ [p]).length ∨
            mx ≤ st.pendingBytes + p.utf8ByteSize) := by
          rw [hsrc] at hflush; exact hflush
        have hmb : mkBatchesGo c mx (p :: ps') st.pending st.pendingBytes =
            mkBatchesGo c mx ps' (st.pending ++ [p])
              (st.pendingBytes + p.utf8ByteSize) := by
          rw [mkBatchesGo, if_neg hflushp]
        rw [hmb]
        simp [hst1, hsrc]

theorem rowsCorr_initial :
    ∀ (rows all : List Row) (k : ℕ),
    (∀ t, rows.get? t = all.get? (k + t)) →
    (∀ r ∈ rows, r.dst = "") →
    RowsCorr all (List.range' k rows.length) (rows.map Row.src) := by
  intro rows
  induction rows with
  | nil => intro all k _ _; exact RowsCorr.nil
  | cons r rest ih =>
    intro all k hg hd
    have hget : all.get? k = some r := by
      have h0 := hg 0
      rw [Nat.add_zero] at h0
      exact h0.symm
    refine RowsCorr.cons hget rfl (hd r (List.mem_cons_self _ _)) ?_
    exact ih all (k + 1) (fun t => by
      have := hg (t + 1)
      rwa [show k + (t + 1) = k + 1 + t by omega] at this)
      (fun q hq => hd q (List.mem_cons_of_mem _ hq))

/-- C1 (amended): batch partition invariant.  For a stream of fresh
rows (non-empty distinct sources, empty destinations, nothing cached)
and limits `c ≥ 1`, `mx ≥ 1`, the batches dispatched by `translate`
are exactly the pure partition `mkBatches` of the phrase stream; every
dispatched batch is non-empty, has `count ≤ c`, and its byte size
*excluding its last phrase* is strictly below `mx` (the phrase that
crosses the byte limit is included in the batch it overflows, so a
multi-phrase batch may exceed `mx` by its final phrase — the code
flushes when `bytes ≥ mx` *after* appending); and concatenating all
dispatched batches in dispatch order reproduces the phrase stream
exactly. -/
theorem C1_batch_partition (oracle : BatchOracle) (c mx : ℕ)
    (rows : List Row) (prog : List (String × String))
    (hc : 1 ≤ c) (hm : 1 ≤ mx)
    (hfresh : ∀ r ∈ rows, r.src ≠ "" ∧ r.dst = "")
    (hcache : ∀ r ∈ rows, dget prog r.src = none)
    (hnodup : (rows.map Row.src).Nodup) :
    (translateCore oracle c mx rows prog).dispatched =
      mkBatches c mx (rows.map Row.src) ∧
    (∀ b ∈ (translateCore oracle c mx rows prog).dispatched,
      b ≠ [] ∧ b.length ≤ c ∧ bytesOf b.dropLast < mx) ∧
    ((translateCore oracle c mx rows prog).dispatched).join =
      rows.map Row.src := by
  have hcorr : RowsCorr rows (List.range rows.length) (rows.map Row.src)
    := by
    rw [List.range_eq_range']
    exact rowsCorr_initial rows rows 0
      (fun t => by rw [Nat.zero_add])
      (fun r hr => (hfresh r hr).2)
  have hps : ∀ p ∈ rows.map Row.src, p ≠ "" ∧ dget prog p = none ∧
      p ∉ ([] : List String) := by
    intro p hp
    obtain ⟨r, hr, hrp⟩ := List.mem_map.mp hp
    exact ⟨hrp ▸ (hfresh r hr).1, hrp ▸ hcache r hr, by simp⟩
  have hmain : (translateCore oracle c mx rows prog).dispatched =
      mkBatches c mx (rows.map Row.src) := by
    have hb := translateLoop_batches_bridge oracle c mx
      (List.range rows.length) (rows.map Row.src)
      ⟨rows, prog, [], [], 0, []⟩ hcorr (List.nodup_range _) hnodup
      hps (by simp)
    simpa [mkBatches] using hb
  refine ⟨hmain, ?_, ?_⟩
  · rw [hmain]
    exact fun b hb => mkBatchesGo_bounds c mx hc hm _ [] 0
      (by simpa using hc) (by simp [bytesOf]) (by omega) b hb
  · rw [hmain, mkBatches, mkBatchesGo_join]
    simp

/-- Witness for C1 at a concrete input. -/
theorem C1_batch_partition_witness :
    (translateCore (fun _ => .error ()) 10 8192
        [⟨"Hello", "", ""⟩, ⟨"Bye", "", ""⟩] []).dispatched =
      mkBatches 10 8192
        ([⟨"Hello", "", ""⟩, ⟨"Bye", "", ""⟩].map Row.src) ∧
    (∀ b ∈ (translateCore (fun _ => .error ()) 10 8192
        [⟨"Hello", "", ""⟩, ⟨"Bye", "", ""⟩] []).dispatched,
      b ≠ [] ∧ b.length ≤ 10 ∧ bytesOf b.dropLast < 8192) ∧
    ((translateCore (fun _ => .error ()) 10 8192
        [⟨"Hello", "", ""⟩, ⟨"Bye", "", ""⟩] []).dispatched).join =
      [⟨"Hello", "", ""⟩, ⟨"Bye", "", ""⟩].map Row.src :=
  C1_batch_partition (fun _ => .error ()) 10 8192
    [⟨"Hello", "", ""⟩, ⟨"Bye", "", ""⟩] [] (by omega) (by omega)
    (by intro r hr; simp only [List.mem_cons, List.not_mem_nil,
          or_false] at hr
        rcases hr with rfl | rfl <;> exact ⟨by decide, rfl⟩)
    (by intro r _; rfl)
    (by simp)

/-- C1 counterexample: the claim's bound "total UTF-8 byte size ≤
max_size unless the batch is a single oversized phrase" is false — with
`batch_max_bytes = 8` and phrases of 5 bytes each, `translate`
dispatches a two-phrase batch of 10 bytes, because the flush test runs
*after* the phrase is appended. -/
theorem C1_counterexample :
    (translateCore (fun _ => .error ()) 50 8
        [⟨"aaaaa", "", ""⟩, ⟨"bbbbb", "", ""⟩] []).dispatched =
      [["aaaaa", "bbbbb"]] ∧
    ¬(∀ b ∈ (translateCore (fun _ => .error ()) 50 8
        [⟨"aaaaa", "", ""⟩, ⟨"bbbbb", "", ""⟩] []).dispatched,
      b.length ≤ 50 ∧ (bytesOf b ≤ 8 ∨ b.length = 1)) := by
  have hd : (translateCore (fun _ => .error ()) 50 8
      [⟨"aaaaa", "", ""⟩, ⟨"bbbbb", "", ""⟩] []).dispatched =
      [["aaaaa", "bbbbb"]] := by rfl
  refine ⟨hd, ?_⟩
  intro h
  rw [hd] at h
  have hb := h ["aaaaa", "bbbbb"] (List.mem_singleton.mpr rfl)
  rcases hb.2 with h2 | h3
  · exact absurd h2 (by decide)
  · exact absurd h3 (by decide)

/-! ### `PromptManager.format_prompt`
(src/lib/PromptManager.py, 169–198)

`format_prompt` first collects the placeholder names found by
`re.findall(r"\{([^}]+)\}", template)`; if any of them is missing from
the supplied keyword arguments it prints a warning and returns the
template unchanged; otherwise it calls `template.format(**kwargs)`,
and any exception from `format` (`KeyError`, `ValueError`,
`IndexError`, anything else) is caught and the template returned
unchanged.

`pyFormat` embeds CPython `str.format` for keyword arguments whose
values are all strings (the only call shape in the repository):
escaped braces, replacement fields with a name, an optional `!`
conversion and an optional `:` format spec (with one level of nested
replacement fields in the spec, escapes included), Unicode decimal
digits in positional names and in spec widths and precisions, and the
string format-spec mini-language — fill, align, zero flag, width,
precision and type, with sign, `#`, grouping, `=`-alignment and
unknown codes raising.  `.err` is any exception out of `format`.
Three features are left outside the modelled fragment and yield
`.unmodeled`, about which no theorem below claims anything: attribute
and index access in a field (when they succeed their output embeds
interpreter state, e.g. bound-method reprs with addresses), the
`!r`/`!a` conversions, and conversions or specs on the *nested* fields
inside a format spec. -/

def findVarsAux : ℕ → List Char → List String
  | 0, _ => []
  | _ + 1, [] => []
  | fuel + 1, '{' :: rest =>
    let run := rest.takeWhile (fun c => c != '}')
    if run.isEmpty then findVarsAux fuel rest
    else
      match rest.drop run.length with
      | '}' :: rest2 => String.mk run :: findVarsAux fuel rest2
      | _ => findVarsAux fuel rest
  | fuel + 1, _ :: rest => findVarsAux fuel rest

/-- `re.findall(r"\{([^}]+)\}", template)`. -/
def findVars (s : String) : List String :=
  findVarsAux (s.data.length + 1) s.data

/-- Outcome of a (sub)parse of `str.format`: a value, an exception, or
a construct outside the modelled fragment. -/
inductive FParse (α : Type) where
  | ok (a : α)
  | err
  | unmodeled
deriving DecidableEq

def FParse.mapOk {α : Type} (g : α → α) : FParse α → FParse α
  | .ok a => .ok (g a)
  | .err => .err
  | .unmodeled => .unmodeled

/-- Collect the raw format spec of a replacement field: everything up
to the matching `\x7d` (nested braces tracked by depth); `none` is the
`ValueError` for an unterminated field. -/
def scanSpecText (depth : ℕ) : List Char → Option (List Char × List Char)
  | [] => none
  | c :: r =>
    if c = '{' then
      match scanSpecText (depth + 1) r with
      | some (t, rest) => some ('{' :: t, rest)
      | none => none
    else if c = '}' then
      match depth with
      | 0 => some ([], r)
      | d + 1 =>
        match scanSpecText d r with
        | some (t, rest) => some ('}' :: t, rest)
        | none => none
    else
      match scanSpecText depth r with
      | some (t, rest) => some (c :: t, rest)
      | none => none

/-- Parse one replacement field after its opening brace: the name, the
optional conversion character (the character right after `!`, whatever
it is), the optional raw spec, and the text after the closing brace.
A brace inside a field name, a missing closer and a stray character
after the conversion are `ValueError`s; attribute (`.`) and index
(`[`) access leave the modelled fragment. -/
def scanField : List Char →
    FParse (List Char × Option Char × Option (List Char) × List Char)
  | [] => .err
  | c :: r =>
    if c = '}' then .ok ([], none, none, r)
    else if c = '{' then .err
    else if c = '.' ∨ c = '[' then .unmodeled
    else if c = '!' then
      match r with
      | [] => .err
      | cv :: r2 =>
        match r2 with
        | [] => .err
        | c2 :: r3 =>
          if c2 = '}' then .ok ([], some cv, none, r3)
          else if c2 = ':' then
            match scanSpecText 0 r3 with
            | some (sp, rest) => .ok ([], some cv, some sp, rest)
            | none => .err
          else .err
    else if c = ':' then
      match scanSpecText 0 r with
      | some (sp, rest) => .ok ([], none, some sp, rest)
      | none => .err
    else
      match scanField r with
      | .ok (nm, cv, sp, rest) => .ok (c :: nm, cv, sp, rest)
      | .err => .err
      | .unmodeled => .unmodeled

/-- `get_field_object` with no positional arguments: an empty or
all-decimal name is a positional index (an `IndexError` here),
otherwise the keyword dict is consulted (`KeyError` when absent). -/
def resolveName (vars : List (String × String)) (name : List Char) :
    FParse (List Char) :=
  if name.isEmpty then .err
  else if name.all (fun c => (pyDecimalVal? c).isSome) then .err
  else
    match dget vars (String.mk name) with
    | some v => .ok v.data
    | none => .err

/-- `do_conversion` on a `str` value: `!s` is the identity, `!r`/`!a`
leave the modelled fragment, any other conversion is a `ValueError`. -/
def applyConv : Option Char → List Char → FParse (List Char)
  | none, v => .ok v
  | some c, v =>
    if c = 's' then .ok v
    else if c = 'r' ∨ c = 'a' then .unmodeled
    else .err

/-- Scan a nested replacement field inside a format spec: plain names
only; a conversion, a spec, or attribute/index access on the nested
field leaves the modelled fragment, a brace in its name raises. -/
def scanNested : List Char → FParse (List Char × List Char)
  | [] => .err
  | c :: r =>
    if c = '}' then .ok ([], r)
    else if c = '{' then .err
    else if c = '.' ∨ c = '[' ∨ c = '!' ∨ c = ':' then .unmodeled
    else
      match scanNested r with
      | .ok (nm, rest) => .ok (c :: nm, rest)
      | .err => .err
      | .unmodeled => .unmodeled

/-- Expand the nested replacement fields of a format spec (the
depth-one recursion of `str.format` on specs): escaped braces become
literal braces, a nested field is resolved against the keyword dict
and its value spliced in verbatim. -/
def expandSpec (vars : List (String × String)) :
    ℕ → List Char → FParse (List Char)
  | 0, _ => .err
  | _ + 1, [] => .ok []
  | fuel + 1, c :: rest =>
    if c = '{' then
      match rest with
      | [] => .err
      | c2 :: rest2 =>
        if c2 = '{' then
          (expandSpec vars fuel rest2).mapOk (fun t => '{' :: t)
        else
          match scanNested (c2 :: rest2) with
          | .unmodeled => .unmodeled
          | .err => .err
          | .ok (nm, rest3) =>
            match resolveName vars nm with
            | .unmodeled => .unmodeled
            | .err => .err
            | .ok v => (expandSpec vars fuel rest3).mapOk (fun t => v ++ t)
    else if c = '}' then
      match rest with
      | [] => .err
      | c2 :: rest2 =>
        if c2 = '}' then
          (expandSpec vars fuel rest2).mapOk (fun t => '}' :: t)
        else .err
    else (expandSpec vars fuel rest).mapOk (fun t => c :: t)

def alignChar (c : Char) : Bool :=
  c == '<' || c == '>' || c == '^' || c == '='

/-- Greedily consume Unicode decimal digits (any script), returning
their base-10 value if at least one was read. -/
def takeDecimalAux (acc : ℕ) (got : Bool) :
    List Char → Option ℕ × List Char
  | [] => (if got then some acc else none, [])
  | c :: r =>
    match pyDecimalVal? c with
    | some d => takeDecimalAux (acc * 10 + d) true r
    | none => (if got then some acc else none, c :: r)

/-- The precision part `.digits` of a format spec; a dot with no
digits is the `ValueError` "Format specifier missing precision". -/
def specPrec : List Char → Option (Option ℕ × List Char)
  | '.' :: r =>
    match takeDecimalAux 0 false r with
    | (some p, r2) => some (some p, r2)
    | (none, _) => none
  | r => some (none, r)

/-- Truncate to the precision, then pad to the width with the fill
character according to the alignment (`<` is the string default). -/
def renderStr (fill : Option Char) (align : Option Char)
    (width : Option ℕ) (prec : Option ℕ) (v : List Char) : List Char :=
  let v1 := match prec with | some p => v.take p | none => v
  match width with
  | none => v1
  | some w =>
    if w ≤ v1.length then v1
    else
      let pad := w - v1.length
      let f := fill.getD ' '
      if align = some '>' then List.replicate pad f ++ v1
      else if align = some '^' then
        List.replicate (pad / 2) f ++ v1 ++
          List.replicate (pad - pad / 2) f
      else v1 ++ List.replicate pad f

/-- The sign, `z` and `#` flags right after the alignment, all of
which raise for strings. -/
def specFlagBad : List Char → Bool
  | c :: _ => c == '+' || c == '-' || c == ' ' || c == 'z' || c == '#'
  | [] => false

/-- The zero flag: one leading `0` sets the fill to `0` when no fill
was given. -/
def specZero (fill0 : Option Char) : List Char → Option Char × List Char
  | '0' :: r => (some (fill0.getD '0'), r)
  | r => (fill0, r)

/-- `format(value, spec)` for a `str` value: parse
`[[fill]align][sign][0][width][grouping][.precision][type]` and
render; `none` is a `ValueError` (sign, `z`, `#`, grouping and
`=`-alignment are rejected for strings, the type must be `s` or
absent, and leftover characters are an invalid specifier). -/
def formatStrSpec (v : List Char) (spec : List Char) :
    Option (List Char) :=
  let fa : Option Char × Option Char × List Char :=
    match spec with
    | a :: b :: r =>
      if alignChar b then (some a, some b, r)
      else if alignChar a then (none, some a, b :: r)
      else (none, none, a :: b :: r)
    | [a] => if alignChar a then (none, some a, []) else (none, none, [a])
    | [] => (none, none, [])
  match fa with
  | (fill0, align, r1) =>
    if align = some '=' then none
    else if specFlagBad r1 then none
    else
      match specZero fill0 r1 with
      | (fill1, r2) =>
        match takeDecimalAux 0 false r2 with
        | (width, r3) =>
          match r3 with
          | ',' :: _ => none
          | '_' :: _ => none
          | _ =>
            match specPrec r3 with
            | none => none
            | some (prec, r4) =>
              match r4 with
              | [] => some (renderStr fill1 align width prec v)
              | [t] =>
                if t = 's' then
                  some (renderStr fill1 align width prec v)
                else none
              | _ => none

/-- `str.format` on a template with string keyword arguments and no
positional arguments. -/
def pyFormat (vars : List (String × String)) :
    ℕ → List Char → FParse (List Char)
  | 0, _ => .err
  | _ + 1, [] => .ok []
  | fuel + 1, c :: rest =>
    if c = '{' then
      match rest with
      | [] => .err
      | c2 :: rest2 =>
        if c2 = '{' then
          (pyFormat vars fuel rest2).mapOk (fun t => '{' :: t)
        else
          match scanField (c2 :: rest2) with
          | .unmodeled => .unmodeled
          | .err => .err
          | .ok (nm, cv, sp, rest3) =>
            match resolveName vars nm with
            | .unmodeled => .unmodeled
            | .err => .err
            | .ok v0 =>
              match applyConv cv v0 with
              | .unmodeled => .unmodeled
              | .err => .err
              | .ok v1 =>
                match sp with
                | none =>
                  (pyFormat vars fuel rest3).mapOk (fun t => v1 ++ t)
                | some spRaw =>
                  match expandSpec vars (spRaw.length + 1) spRaw with
                  | .unmodeled => .unmodeled
                  | .err => .err
                  | .ok spE =>
                    match formatStrSpec v1 spE with
                    | none => .err
                    | some out =>
                      (pyFormat vars fuel rest3).mapOk
                        (fun t => out ++ t)
    else if c = '}' then
      match rest with
      | c2 :: rest2 =>
        if c2 = '}' then
          (pyFormat vars fuel rest2).mapOk (fun t => '}' :: t)
        else .err
      | [] => .err
    else (pyFormat vars fuel rest).mapOk (fun t => c :: t)

/-- `PromptManager.format_prompt(template, **kwargs)`; `none` when the
template and variables reach a `str.format` feature outside the
modelled fragment (attribute/index access, `!r`/`!a`, nested
conversions or specs). -/
def formatPrompt (template : String) (vars : List (String × String)) :
    Option String :=
  if (findVars template).any (fun v => (dget vars v).isNone) then
    some template
  else
    match pyFormat vars (template.data.length + 1) template.data with
    | .ok out => some (String.mk out)
    | .err => some template
    | .unmodeled => none

theorem scanField_plain (name rest : List Char)
    (h : ∀ c ∈ name, c ≠ '}' ∧ c ≠ '{' ∧ c ≠ '.' ∧ c ≠ '[' ∧
      c ≠ '!' ∧ c ≠ ':') :
    scanField (name ++ '}' :: rest) = .ok (name, none, none, rest) := by
  induction name with
  | nil => rfl
  | cons c cs ih =>
    obtain ⟨h1, h2, h3, h4, h5, h6⟩ := h c (List.mem_cons_self _ _)
    simp only [List.cons_append, scanField]
    rw [if_neg h1, if_neg h2, if_neg (not_or.mpr ⟨h3, h4⟩), if_neg h5,
      if_neg h6, List.append_eq,
      ih (fun x hx => h x (List.mem_cons_of_mem _ hx))]

/-- C8 (amended): `format_prompt` is a detectable no-op on bad
templates, never raising and never partially substituting.  (1) If the
template references any placeholder (as found by the `\{([^}]+)\}`
regex) that is not among the supplied variables, the template is
returned unmodified.  (2)–(3) Otherwise `str.format` runs: when it
raises (a lone brace, a positional field, a missing name, a bad
conversion, a malformed or non-string format spec, …) the template is
again returned unmodified — not partially substituted — and when it
succeeds its result is returned, which interprets conversions and
format specs rather than substituting placeholders verbatim.  (4)
Substitution does replace every simple placeholder: a field made of
plain non-decimal characters whose name is supplied is replaced by the
supplied value. -/
theorem C8_format_prompt (template : String)
    (vars : List (String × String)) :
    ((∃ v ∈ findVars template, dget vars v = none) →
      formatPrompt template vars = some template) ∧
    ((∀ v ∈ findVars template, (dget vars v).isSome) →
      pyFormat vars (template.data.length + 1) template.data = .err →
      formatPrompt template vars = some template) ∧
    (∀ out, (∀ v ∈ findVars template, (dget vars v).isSome) →
      pyFormat vars (template.data.length + 1) template.data = .ok out →
      formatPrompt template vars = some (String.mk out)) ∧
    (∀ (fuel : ℕ) (name rest : List Char) (v : String), name ≠ [] →
      (∀ c ∈ name, (c ≠ '}' ∧ c ≠ '{' ∧ c ≠ '.' ∧ c ≠ '[' ∧
        c ≠ '!' ∧ c ≠ ':') ∧ pyDecimalVal? c = none) →
      dget vars (String.mk name) = some v →
      pyFormat vars (fuel + 1) ('{' :: (name ++ '}' :: rest)) =
        (pyFormat vars fuel rest).mapOk (fun t => v.data ++ t)) := by
  refine ⟨?_, ?_, ?_, ?_⟩
  · rintro ⟨v, hv, hnone⟩
    unfold formatPrompt
    rw [if_pos (List.any_eq_true.mpr ⟨v, hv, by rw [hnone]; rfl⟩)]
  · intro hall herr
    unfold formatPrompt
    rw [if_neg (by
      simp only [List.any_eq_true, not_exists, not_and]
      intro v hv
      simp [Option.isNone_iff_eq_none]
      intro h
      have := hall v hv
      rw [h] at this
      exact Bool.noConfusion this), herr]
  · intro out hall hok
    unfold formatPrompt
    rw [if_neg (by
      simp only [List.any_eq_true, not_exists, not_and]
      intro v hv
      simp [Option.isNone_iff_eq_none]
      intro h
      have := hall v hv
      rw [h] at this
      exact Bool.noConfusion this), hok]
  · intro fuel name rest v hne hgood hv
    cases name with
    | nil => exact absurd rfl hne
    | cons c0 name' =>
      have hc0 : ¬(c0 = '{') := (hgood c0 (List.mem_cons_self _ _)).1.2.1
      have hc0d : pyDecimalVal? c0 = none :=
        (hgood c0 (List.mem_cons_self _ _)).2
      have hallf : ((c0 :: name').all
          fun c => (pyDecimalVal? c).isSome) = false := by
        rw [List.all_cons, hc0d]
        rfl
      simp only [List.cons_append, pyFormat, if_pos rfl]
      rw [if_neg hc0]
      rw [show (c0 :: (name' ++ '}' :: rest)) =
        ((c0 :: name') ++ '}' :: rest) from rfl]
      rw [scanField_plain (c0 :: name') rest (fun c hc => (hgood c hc).1)]
      dsimp only
      unfold resolveName
      rw [if_neg (show ¬((c0 :: name').isEmpty = true) by simp),
        if_neg (show ¬(((c0 :: name').all
          fun c => (pyDecimalVal? c).isSome) = true) by simp [hallf]), hv]
      simp [applyConv]

/-- Witness for C8 at concrete inputs: a simple placeholder is
substituted, and a field carrying a format spec that also passes the
findall gate is formatted by `str.format` (not returned unmodified). -/
theorem C8_format_prompt_witness :
    formatPrompt "Hello {name}!" [("name", "W")] = some "Hello W!" ∧
    formatPrompt "{x:>3}" [("x:>3", "q"), ("x", "V")] = some "  V" :=
  ⟨(C8_format_prompt "Hello {name}!" [("name", "W")]).2.2.1
      "Hello W!".data (by decide) (by rfl),
    (C8_format_prompt "{x:>3}" [("x:>3", "q"), ("x", "V")]).2.2.1
      "  V".data (by decide) (by rfl)⟩

/-- C8 counterexample: the claim's "otherwise it returns the template
with every placeholder substituted" is false — for the template
`"{x}\x7b"` with `x` supplied, every regex-found placeholder is among the
variables, yet `str.format` raises `ValueError` on the dangling `{` and
`format_prompt` returns the template unmodified, with `{x}` left
unsubstituted. -/
theorem C8_counterexample :
    (∀ v ∈ findVars "{x}\x7b", (dget [("x", "V")] v).isSome) ∧
    formatPrompt "{x}\x7b" [("x", "V")] = some "{x}\x7b" ∧
    formatPrompt "{x}\x7b" [("x", "V")] ≠ some "V\x7b" := by
  refine ⟨?_, by rfl, by decide⟩
  intro v hv
  have hfv : findVars "{x}\x7b" = ["x"] := by rfl
  rw [hfv] at hv
  rw [List.mem_singleton.mp hv]
  rfl

/-! ### Idempotence of `translate` (C2) -/

/-- A rows/progress pair is *stable* when every row with a non-empty
source phrase has a cache entry, and rows whose destination is still
empty are cached as the empty translation.  A second `translate` run
on a stable state is a no-op. -/
def Stable (rows : List Row) (prog : List (String × String)) : Prop :=
  ∀ r ∈ rows, r.src ≠ "" →
    ∃ t, dget prog r.src = some t ∧ (r.dst = "" → t = "")

theorem modifyRow_eq_self (rows : List Row) (i : ℕ) (f : Row → Row)
    (r : Row) (hget : rows.get? i = some r) (hf : f r = r) :
    modifyRow rows i f = rows := by
  induction rows generalizing i with
  | nil => rfl
  | cons r0 rest ih =>
    cases i with
    | zero =>
      have : r0 = r := Option.some.inj hget
      subst this
      simp [modifyRow, hf]
    | succ n =>
      simp only [modifyRow, List.cons.injEq, true_and]
      exact ih n hget

theorem translateLoop_stable_noop (oracle : BatchOracle) (c mx : ℕ)
    (rows : List Row) (prog : List (String × String))
    (hstable : Stable rows prog) :
    ∀ is, translateLoop oracle c mx is ⟨rows, prog, [], [], 0, []⟩ =
      ⟨rows, prog, [], [], 0, []⟩ := by
  intro is
  induction is with
  | nil => rfl
  | cons i rest ih =>
    cases hrow : (⟨rows, prog, [], [], 0, []⟩ : TState).rows.get? i with
    | none => simp only [translateLoop, hrow]; exact ih
    | some row =>
      have hmem : row ∈ rows := List.get?_mem hrow
      simp only [translateLoop, hrow]
      by_cases hsrc : row.src = ""
      · rw [if_pos hsrc]; exact ih
      · rw [if_neg hsrc]
        obtain ⟨t, ht, himp⟩ := hstable row hmem hsrc
        by_cases hdst : row.dst ≠ ""
        · rw [if_pos hdst]
          have hts : (dget prog row.src).isSome = true := by rw [ht]; rfl
          simp only [hts, if_true]
          exact ih
        · rw [if_neg hdst]
          have hdst0 : row.dst = "" := by by_contra h; exact hdst h
          have ht' : dget prog row.src = some "" := by
            rw [ht, himp hdst0]
          have hmod : modifyRow rows i (fun r => { r with dst := "" }) =
              rows := by
            refine modifyRow_eq_self rows i _ row hrow ?_
            rw [← hdst0]
          simp only [ht', hmod]
          exact ih

/-- A `translate` run launched from a stable state leaves the rows and
the cache untouched and dispatches no batch (no model call). -/
theorem translateCore_of_stable (oracle : BatchOracle) (c mx : ℕ)
    (rows : List Row) (prog : List (String × String))
    (hstable : Stable rows prog) :
    translateCore oracle c mx rows prog = ⟨rows, prog, [], [], 0, []⟩ := by
  unfold translateCore
  rw [translateLoop_stable_noop oracle c mx rows prog hstable]
  rfl

/-- A batch oracle is *complete* when every dispatched (non-empty)
batch succeeds and returns a translation for every phrase in it. -/
def Complete (oracle : BatchOracle) : Prop :=
  ∀ b, b ≠ [] → ∃ m, oracle b = .ok m ∧ ∀ p ∈ b, (dget m p).isSome

theorem mem_zip_left {γ : Type} (ps : List γ) (is : List ℕ) (p : γ)
    (hlen : ps.length = is.length) (hp : p ∈ ps) :
    ∃ j, (p, j) ∈ ps.zip is := by
  induction ps generalizing is with
  | nil => cases hp
  | cons q qrest ih =>
    cases is with
    | nil => simp at hlen
    | cons i irest =>
      rcases List.mem_cons.mp hp with h | h
      · exact ⟨i, by simp [h]⟩
      · obtain ⟨j, hj⟩ := ih irest (by simpa using hlen) h
        exact ⟨j, List.mem_cons_of_mem _ hj⟩

/-- After `_update_translations_from_batch` with a mapping that covers
every batch phrase, each batched row carries its mapped translation and
so does the progress dict. -/
theorem applyUpdates_complete (m : List (String × String)) :
    ∀ (ps : List String) (is : List ℕ) (rows : List Row)
      (prog : List (String × String)),
    ps.length = is.length → is.Nodup →
    (∀ pi ∈ ps.zip is, ∃ r, rows.get? pi.2 = some r ∧ r.src = pi.1) →
    (∀ p ∈ ps, (dget m p).isSome) →
    ∀ pi ∈ ps.zip is, ∃ r t, rows.get? pi.2 = some r ∧
      dget m pi.1 = some t ∧
      (applyUpdates m ps is rows prog).1.get? pi.2 =
        some { r with dst := t } ∧
      dget (applyUpdates m ps is rows prog).2 pi.1 = some t := by
  intro ps
  induction ps with
  | nil => intro is rows prog _ _ _ _ pi hpi; simp at hpi
  | cons p prest ih =>
    intro is rows prog hlen hnodup hpair hcov pi hpi
    cases is with
    | nil => simp at hlen
    | cons i irest =>
      have hlen' : prest.length = irest.length := by simpa using hlen
      have hnodup' : irest.Nodup := (List.nodup_cons.mp hnodup).2
      have hinotmem : i ∉ irest := (List.nodup_cons.mp hnodup).1
      obtain ⟨r₀, hr₀, hr₀src⟩ := hpair (p, i) (by simp [List.zip_cons_cons])
      obtain ⟨t₀, ht₀⟩ := Option.isSome_iff_exists.mp
        (hcov p (List.mem_cons_self _ _))
      rw [List.zip_cons_cons] at hpi
      set rows' := modifyRow rows i (fun r => { r with dst := t₀ })
        with hrows'
      set prog' := dinsert prog p t₀ with hprog'
      have hstep : applyUpdates m (p :: prest) (i :: irest) rows prog =
          applyUpdates m prest irest rows' prog' := by
        simp only [applyUpdates, ht₀, hrows', hprog']
      have hpair' : ∀ qi ∈ prest.zip irest,
          ∃ r, rows'.get? qi.2 = some r ∧ r.src = qi.1 := by
        intro qi hqi
        obtain ⟨r, hr, hsrc⟩ := hpair qi
          (by rw [List.zip_cons_cons]; exact List.mem_cons_of_mem _ hqi)
        have hne : qi.2 ≠ i := fun he =>
          hinotmem (he ▸ (List.of_mem_zip hqi).2)
        exact ⟨r, by rw [hrows', modifyRow_get?_ne _ _ _ _ hne]; exact hr,
          hsrc⟩
      rcases List.mem_cons.mp hpi with hhd | htl
      · subst hhd
        refine ⟨r₀, t₀, hr₀, ht₀, ?_, ?_⟩
        · rw [hstep,
            applyUpdates_rows_not_mem m i prest irest rows' prog' hinotmem,
            hrows', modifyRow_get?_self, hr₀]
          rfl
        · rw [hstep]
          by_cases hp' : p ∈ prest
          · obtain ⟨j, hjzip⟩ := mem_zip_left prest irest p hlen' hp'
            obtain ⟨r1, t1, _, ht1, _, hprog1⟩ := ih irest rows' prog'
              hlen' hnodup' hpair'
              (fun q hq => hcov q (List.mem_cons_of_mem _ hq))
              (p, j) hjzip
            have ht10 : t1 = t₀ := by
              rw [ht₀] at ht1
              exact (Option.some.inj ht1).symm
            rw [hprog1, ht10]
          · rw [applyUpdates_progress_not_mem m p prest irest rows' prog'
              hp', hprog', dget_dinsert_self]
      · obtain ⟨r, t, hr, ht, hrow2, hprog2⟩ := ih irest rows' prog'
          hlen' hnodup' hpair'
          (fun q hq => hcov q (List.mem_cons_of_mem _ hq)) pi htl
        have hne : pi.2 ≠ i := fun he =>
          hinotmem (he ▸ (List.of_mem_zip htl).2)
        refine ⟨r, t, ?_, ht, ?_, ?_⟩
        · rw [hrows', modifyRow_get?_ne _ _ _ _ hne] at hr
          exact hr
        · rw [hstep]; exact hrow2
        · rw [hstep]; exact hprog2

theorem processBatch_stable (oracle : BatchOracle) (st : TState)
    (hcomplete : Complete oracle) (R : ℕ → Prop)
    (hs1 : ∀ j r, R j → st.rows.get? j = some r → j ∉ st.pendingIdx →
      r.src ≠ "" → ∃ t, dget st.progress r.src = some t ∧
        (r.dst = "" → t = "" ∧ r.src ∉ st.pending))
    (hlen : st.pending.length = st.pendingIdx.length)
    (hnodup : st.pendingIdx.Nodup)
    (hpair : ∀ pi ∈ st.pending.zip st.pendingIdx,
      ∃ r, st.rows.get? pi.2 = some r ∧ r.src = pi.1 ∧ r.dst = "") :
    ∀ j r, R j → (processBatch oracle st).rows.get? j = some r →
      r.src ≠ "" →
      ∃ t, dget (processBatch oracle st).progress r.src = some t ∧
        (r.dst = "" → t = "") := by
  intro j r hR hget hsrc
  unfold processBatch at hget ⊢
  by_cases hp : st.pending.isEmpty
  · rw [if_pos hp] at hget ⊢
    have hidx : st.pendingIdx = [] := by
      have h0 : st.pending = [] := List.isEmpty_iff.mp hp
      rw [h0] at hlen
      exact List.eq_nil_of_length_eq_zero hlen.symm
    obtain ⟨t, ht, h2⟩ := hs1 j r hR hget (by rw [hidx]; simp) hsrc
    exact ⟨t, ht, fun hd => (h2 hd).1⟩
  · rw [if_neg hp] at hget ⊢
    have hpne : st.pending ≠ [] := fun h => by simp [h] at hp
    obtain ⟨m, hm, hcov⟩ := hcomplete st.pending hpne
    rw [hm] at hget ⊢
    dsimp only at hget ⊢
    by_cases hj : j ∈ st.pendingIdx
    · obtain ⟨p, hpz⟩ := mem_zip_right st.pending st.pendingIdx j hlen hj
      obtain ⟨r₀, t, hr₀, ht, hrow, hprog⟩ := applyUpdates_complete m
        st.pending st.pendingIdx st.rows st.progress hlen hnodup
        (fun pi hpi => by
          obtain ⟨r1, h1, h2, _⟩ := hpair pi hpi
          exact ⟨r1, h1, h2⟩) hcov (p, j) hpz
      have hr : r = { r₀ with dst := t } := by
        rw [hget] at hrow
        exact Option.some.inj hrow
      obtain ⟨r₁, hr₁, hr₁src, _⟩ := hpair (p, j) hpz
      have hr₁₀ : r₁ = r₀ := by
        rw [hr₀] at hr₁
        exact (Option.some.inj hr₁).symm
      refine ⟨t, ?_, ?_⟩
      · have hrs : r.src = p := by
          rw [hr]
          show r₀.src = p
          rw [← hr₁₀]
          exact hr₁src
        rw [hrs]
        exact hprog
      · intro hd
        rw [hr] at hd
        exact hd
    · rw [applyUpdates_rows_not_mem m j st.pending st.pendingIdx st.rows
        st.progress hj] at hget
      obtain ⟨t, ht, h2⟩ := hs1 j r hR hget hj hsrc
      by_cases hdst : r.dst = ""
      · obtain ⟨ht0, hnp⟩ := h2 hdst
        refine ⟨t, ?_, fun _ => ht0⟩
        rw [applyUpdates_progress_not_mem m r.src _ _ _ _ hnp]
        exact ht
      · have hsome : (dget (applyUpdates m st.pending st.pendingIdx
            st.rows st.progress).2 r.src).isSome :=
          applyUpdates_progress_mono m r.src _ _ _ _ (by rw [ht]; rfl)
        obtain ⟨t', ht'⟩ := Option.isSome_iff_exists.mp hsome
        exact ⟨t', ht', fun hd => absurd hd hdst⟩

/-- Inductive invariant for the stability argument: with a complete
oracle, every row the loop is done with (neither remaining nor pending)
has its phrase cached — cached as the empty string and absent from the
pending batch when the destination cell is still empty; the pending
batch pairs empty-destination rows with their phrases, and every
pending phrase is either uncached or cached with a non-empty value. -/
structure StableInv (remaining : List ℕ) (st : TState) : Prop where
  s1 : ∀ j r, st.rows.get? j = some r → j ∉ remaining →
    j ∉ st.pendingIdx → r.src ≠ "" →
    ∃ t, dget st.progress r.src = some t ∧
      (r.dst = "" → t = "" ∧ r.src ∉ st.pending)
  pairLen : st.pending.length = st.pendingIdx.length
  pair : ∀ pi ∈ st.pending.zip st.pendingIdx,
    ∃ r, st.rows.get? pi.2 = some r ∧ r.src = pi.1 ∧ r.dst = ""
  pendDisj : ∀ j ∈ st.pendingIdx, j ∉ remaining
  pendNodup : st.pendingIdx.Nodup
  s3 : ∀ p ∈ st.pending, dget st.progress p = none ∨
    ∃ t, dget st.progress p = some t ∧ t ≠ ""

theorem translateLoop_stableInv (oracle : BatchOracle) (c mx : ℕ)
    (hcomplete : Complete oracle) :
    ∀ (is : List ℕ) (st : TState), is.Nodup → StableInv is st →
    StableInv [] (translateLoop oracle c mx is st) := by
  intro is
  induction is with
  | nil => intro st _ hI; exact hI
  | cons i rest ih =>
    intro st hnd hI
    have hir : i ∉ rest := (List.nodup_cons.mp hnd).1
    have hnd' : rest.Nodup := (List.nodup_cons.mp hnd).2
    have hiidx : i ∉ st.pendingIdx := fun h =>
      hI.pendDisj i h (List.mem_cons_self _ _)
    cases hrow : st.rows.get? i with
    | none =>
      simp only [translateLoop, hrow]
      refine ih st hnd' ⟨?_, hI.pairLen, hI.pair, ?_, hI.pendNodup, hI.s3⟩
      · intro j r hget hj hpidx hsrc
        by_cases hji : j = i
        · subst hji; rw [hrow] at hget; exact Option.noConfusion hget
        · exact hI.s1 j r hget
            (fun h => (List.mem_cons.mp h).elim hji hj) hpidx hsrc
      · exact fun j h hm => hI.pendDisj j h (List.mem_cons_of_mem _ hm)
    | some row =>
      simp only [translateLoop, hrow]
      by_cases hsrc0 : row.src = ""
      · rw [if_pos hsrc0]
        refine ih st hnd' ⟨?_, hI.pairLen, hI.pair, ?_, hI.pendNodup,
          hI.s3⟩
        · intro j r hget hj hpidx hsrc
          by_cases hji : j = i
          · subst hji
            rw [hrow] at hget
            have : r = row := Option.some.inj hget.symm
            exact absurd (this ▸ hsrc0) hsrc
          · exact hI.s1 j r hget
              (fun h => (List.mem_cons.mp h).elim hji hj) hpidx hsrc
        · exact fun j h hm => hI.pendDisj j h (List.mem_cons_of_mem _ hm)
      · rw [if_neg hsrc0]
        by_cases hdst0 : row.dst ≠ ""
        · rw [if_pos hdst0]
          by_cases hp : (dget st.progress row.src).isSome
          · rw [if_pos hp]
            refine ih st hnd' ⟨?_, hI.pairLen, hI.pair, ?_, hI.pendNodup,
              hI.s3⟩
            · intro j r hget hj hpidx hsrc
              by_cases hji : j = i
              · subst hji
                rw [hrow] at hget
                have hri : r = row := Option.some.inj hget.symm
                obtain ⟨t, ht⟩ := Option.isSome_iff_exists.mp hp
                refine ⟨t, ?_, ?_⟩
                · rw [hri]; exact ht
                · intro hd
                  rw [hri] at hd
                  exact absurd hd hdst0
              · exact hI.s1 j r hget
                  (fun h => (List.mem_cons.mp h).elim hji hj) hpidx hsrc
            · exact fun j h hm =>
                hI.pendDisj j h (List.mem_cons_of_mem _ hm)
          · rw [if_neg hp]
            have hpnone : dget st.progress row.src = none := by
              cases hq : dget st.progress row.src with
              | none => rfl
              | some u => rw [hq] at hp; exact absurd rfl hp
            refine ih _ hnd' ⟨?_, hI.pairLen, hI.pair, ?_, hI.pendNodup,
              ?_⟩
            · intro j r hget hj hpidx hsrc
              by_cases hji : j = i
              · subst hji
                rw [hrow] at hget
                have hri : r = row := Option.some.inj hget.symm
                refine ⟨row.dst, ?_, ?_⟩
                · show dget (dinsert st.progress row.src row.dst) r.src =
                    some row.dst
                  rw [hri]
                  exact dget_dinsert_self _ _ _
                · intro hd
                  rw [hri] at hd
                  exact absurd hd hdst0
              · obtain ⟨t, ht, hcnd⟩ := hI.s1 j r hget
                  (fun h => (List.mem_cons.mp h).elim hji hj) hpidx hsrc
                have hne : r.src ≠ row.src := fun he => by
                  rw [he, hpnone] at ht
                  exact Option.noConfusion ht
                refine ⟨t, ?_, hcnd⟩
                show dget (dinsert st.progress row.src row.dst) r.src =
                  some t
                rw [dget_dinsert_ne _ _ _ _ hne]
                exact ht
            · exact fun j h hm =>
                hI.pendDisj j h (List.mem_cons_of_mem _ hm)
            · intro p hpm
              by_cases hpe : p = row.src
              · subst hpe
                right
                exact ⟨row.dst, dget_dinsert_self _ _ _, hdst0⟩
              · rcases hI.s3 p hpm with hn | ⟨t, ht, htne⟩
                · left
                  show dget (dinsert st.progress row.src row.dst) p = none
                  rw [dget_dinsert_ne _ _ _ _ hpe]
                  exact hn
                · right
                  refine ⟨t, ?_, htne⟩
                  show dget (dinsert st.progress row.src row.dst) p =
                    some t
                  rw [dget_dinsert_ne _ _ _ _ hpe]
                  exact ht
        · rw [if_neg hdst0]
          have hdst0' : row.dst = "" := by
            by_contra h; exact hdst0 h
          cases hc : dget st.progress row.src with
          | some t =>
            refine ih _ hnd' ⟨?_, hI.pairLen, ?_, ?_, hI.pendNodup, hI.s3⟩
            · intro j r hget hj hpidx hsrc
              by_cases hji : j = i
              · subst hji
                rw [modifyRow_get?_self, hrow] at hget
                have hri : r = { row with dst := t } :=
                  Option.some.inj hget.symm
                refine ⟨t, ?_, ?_⟩
                · show dget st.progress r.src = some t
                  rw [hri]
                  exact hc
                · intro hd
                  rw [hri] at hd
                  have htz : t = "" := hd
                  refine ⟨htz, ?_⟩
                  rw [hri]
                  show row.src ∉ st.pending
                  intro hmem
                  rcases hI.s3 row.src hmem with hn | ⟨t', ht', htne⟩
                  · rw [hc] at hn
                    exact Option.noConfusion hn
                  · rw [hc] at ht'
                    have htt : t = t' := Option.some.inj ht'
                    rw [← htt, htz] at htne
                    exact htne rfl
              · rw [modifyRow_get?_ne _ _ _ _ hji] at hget
                exact hI.s1 j r hget
                  (fun h => (List.mem_cons.mp h).elim hji hj) hpidx hsrc
            · intro pi hpi
              obtain ⟨r, hr, h1, h2⟩ := hI.pair pi hpi
              have hne : pi.2 ≠ i := fun he =>
                hiidx (he ▸ (List.of_mem_zip hpi).2)
              exact ⟨r, by rwa [modifyRow_get?_ne _ _ _ _ hne], h1, h2⟩
            · exact fun j h hm =>
                hI.pendDisj j h (List.mem_cons_of_mem _ hm)
          | none =>
            have hpair1 : ∀ pi ∈ (st.pending ++ [row.src]).zip
                (st.pendingIdx ++ [i]),
                ∃ r, st.rows.get? pi.2 = some r ∧ r.src = pi.1 ∧
                  r.dst = "" := by
              intro pi hpi
              rw [List.zip_append hI.pairLen] at hpi
              rcases List.mem_append.mp hpi with h | h
              · exact hI.pair pi h
              · have : pi = (row.src, i) := by simpa using h
                subst this
                exact ⟨row, hrow, rfl, hdst0'⟩
            have hlen1 : (st.pending ++ [row.src]).length =
                (st.pendingIdx ++ [i]).length := by
              simp [hI.pairLen]
            have hnodup1 : (st.pendingIdx ++ [i]).Nodup :=
              nodup_append_singleton _ _ hI.pendNodup hiidx
            have hs1 : ∀ j r, j ∉ rest → st.rows.get? j = some r →
                j ∉ st.pendingIdx ++ [i] → r.src ≠ "" →
                ∃ t, dget st.progress r.src = some t ∧
                  (r.dst = "" → t = "" ∧
                    r.src ∉ st.pending ++ [row.src]) := by
              intro j r hjr hget hpidx hsrc
              have hji : j ≠ i := fun he => hpidx (he ▸
                List.mem_append.mpr (Or.inr (List.mem_singleton.mpr rfl)))
              have hjold : j ∉ st.pendingIdx := fun hm =>
                hpidx (List.mem_append.mpr (Or.inl hm))
              obtain ⟨t, ht, hcnd⟩ := hI.s1 j r hget
                (fun h => (List.mem_cons.mp h).elim hji hjr) hjold hsrc
              refine ⟨t, ht, ?_⟩
              intro hd
              obtain ⟨ht0, hnp⟩ := hcnd hd
              refine ⟨ht0, ?_⟩
              intro hmem
              rcases List.mem_append.mp hmem with h | h
              · exact hnp h
              · have he : r.src = row.src := List.mem_singleton.mp h
                rw [he, hc] at ht
                exact Option.noConfusion ht
            by_cases hflush : c ≤ (st.pending ++ [row.src]).length ∨
                mx ≤ st.pendingBytes + row.src.utf8ByteSize
            · rw [if_pos hflush]
              set st1 : TState :=
                { st with
                  pending := st.pending ++ [row.src]
                  pendingIdx := st.pendingIdx ++ [i]
                  pendingBytes :=
                    st.pendingBytes + row.src.utf8ByteSize } with hst1
              refine ih _ hnd' ⟨?_, rfl, ?_, ?_, List.nodup_nil, ?_⟩
              · intro j r hget hj _ hsrc
                have hget2 : (processBatch oracle st1).rows.get? j =
                    some r := hget
                obtain ⟨t, ht, hcnd⟩ := processBatch_stable oracle st1
                  hcomplete (fun j => j ∉ rest) hs1 hlen1 hnodup1 hpair1
                  j r hj hget2 hsrc
                exact ⟨t, ht, fun hd => ⟨hcnd hd, List.not_mem_nil _⟩⟩
              · intro pi hpi
                simp at hpi
              · intro j h
                simp at h
              · intro p hpm
                simp at hpm
            · rw [if_neg hflush]
              refine ih _ hnd' ⟨?_, hlen1, hpair1, ?_, hnodup1, ?_⟩
              · intro j r hget hj hpidx hsrc
                exact hs1 j r hj hget hpidx hsrc
              · intro j hjm
                rcases List.mem_append.mp hjm with h | h
                · exact fun hm =>
                    hI.pendDisj j h (List.mem_cons_of_mem _ hm)
                · have : j = i := List.mem_singleton.mp h
                  subst this
                  exact hir
              · intro p hpm
                rcases List.mem_append.mp hpm with h | h
                · exact hI.s3 p h
                · have : p = row.src := List.mem_singleton.mp h
                  subst this
                  left
                  exact hc

theorem stableInv_initial (rows : List Row)
    (prog : List (String × String)) :
    StableInv (List.range rows.length) ⟨rows, prog, [], [], 0, []⟩ := by
  refine ⟨?_, rfl, ?_, ?_, List.nodup_nil, ?_⟩
  · intro j r hget hj _ _
    have hget' : rows.get? j = some r := hget
    have hlt : j < rows.length := by
      by_contra h
      rw [List.get?_eq_none.mpr (by omega)] at hget'
      exact Option.noConfusion hget'
    exact absurd (List.mem_range.mpr hlt) hj
  · intro pi hpi
    simp at hpi
  · intro j h
    simp at h
  · intro p hp
    simp at hp

/-- With a complete oracle a `translate` run ends in a stable state:
every row with a non-empty source phrase has its phrase cached, cached
as the empty string whenever the destination cell is still empty. -/
theorem translateCore_stable (oracle : BatchOracle) (c mx : ℕ)
    (rows : List Row) (prog : List (String × String))
    (hcomplete : Complete oracle) :
    Stable (translateCore oracle c mx rows prog).rows
      (translateCore oracle c mx rows prog).progress := by
  have hinv := translateLoop_stableInv oracle c mx hcomplete
    (List.range rows.length) ⟨rows, prog, [], [], 0, []⟩
    (List.nodup_range _) (stableInv_initial rows prog)
  intro r hr hsrc
  obtain ⟨j, hj⟩ := List.get?_of_mem hr
  exact processBatch_stable oracle
    (translateLoop oracle c mx (List.range rows.length)
      ⟨rows, prog, [], [], 0, []⟩) hcomplete (fun _ => True)
    (fun j r _ hget hpidx hsrc => hinv.s1 j r hget (by simp) hpidx hsrc)
    hinv.pairLen hinv.pendNodup hinv.pair j r trivial hj hsrc

theorem dget_map_self (b : List String) :
    ∀ p ∈ b, (dget (b.map (fun q => (q, "T"))) p).isSome := by
  induction b with
  | nil => intro p hp; cases hp
  | cons q rest ih =>
    intro p hp
    show (if q = p then some "T" else
      dget (rest.map fun q => (q, "T")) p).isSome
    by_cases hqp : q = p
    · rw [if_pos hqp]
      rfl
    · have hp' : p ∈ rest := by
        rcases List.mem_cons.mp hp with h | h
        · exact absurd h.symm hqp
        · exact h
      rw [if_neg hqp]
      exact ih p hp'

/-- C2: idempotence of `translate` — corrected. When every dispatched
batch succeeds and returns a translation for every phrase in it (the
oracle is *complete*), a second `translate` run launched on the rows
and progress cache produced by a first run changes nothing: the final
state of the second run keeps every row and every cache entry exactly
as the first run left them, and its dispatch log is empty — no model
call is made for any phrase. Without completeness this fails (see the
counterexample): after a failed batch, a cache entry backfilled from an
already-translated duplicate phrase makes the second run rewrite a
row. -/
theorem C2_translate_idempotent (oracle : BatchOracle) (c mx : ℕ)
    (rows : List Row) (prog : List (String × String))
    (hcomplete : Complete oracle) :
    translateCore oracle c mx
        (translateCore oracle c mx rows prog).rows
        (translateCore oracle c mx rows prog).progress =
      ⟨(translateCore oracle c mx rows prog).rows,
        (translateCore oracle c mx rows prog).progress, [], [], 0, []⟩ :=
  translateCore_of_stable oracle c mx _ _
    (translateCore_stable oracle c mx rows prog hcomplete)

/-- C2 witness: a concrete complete oracle (translating every phrase
to "T") and two rows — the second run is the identity. -/
theorem C2_translate_idempotent_witness :
    translateCore (fun b => Except.ok (b.map (fun p => (p, "T")))) 50
        8192
        (translateCore (fun b => Except.ok (b.map (fun p => (p, "T"))))
          50 8192 [⟨"hello", "", ""⟩, ⟨"world", "", ""⟩] []).rows
        (translateCore (fun b => Except.ok (b.map (fun p => (p, "T"))))
          50 8192 [⟨"hello", "", ""⟩, ⟨"world", "", ""⟩] []).progress =
      ⟨(translateCore (fun b => Except.ok (b.map (fun p => (p, "T"))))
          50 8192 [⟨"hello", "", ""⟩, ⟨"world", "", ""⟩] []).rows,
        (translateCore (fun b => Except.ok (b.map (fun p => (p, "T"))))
          50 8192 [⟨"hello", "", ""⟩, ⟨"world", "", ""⟩] []).progress,
        [], [], 0, []⟩ := by
  have hcomp : Complete
      (fun b => Except.ok (b.map (fun p => (p, "T")))) := by
    intro b _
    exact ⟨b.map (fun p => (p, "T")), rfl, dget_map_self b⟩
  exact C2_translate_idempotent _ 50 8192
    [⟨"hello", "", ""⟩, ⟨"world", "", ""⟩] [] hcomp

/-- C2 counterexample: with a failing driver, `translate` is not
idempotent. Rows share the phrase "a"; row 1 already holds "X". The
first run enqueues row 0, backfills the cache with "X" from row 1, and
its only batch fails, so the rows come out unchanged. The second run
then finds "a" cached and writes "X" into row 0: the destination
column changes. -/
theorem C2_counterexample :
    (translateCore (fun _ => Except.error ()) 50 8192
        [⟨"a", "", ""⟩, ⟨"a", "X", ""⟩] []).rows =
      [⟨"a", "", ""⟩, ⟨"a", "X", ""⟩] ∧
    (translateCore (fun _ => Except.error ()) 50 8192
        (translateCore (fun _ => Except.error ()) 50 8192
          [⟨"a", "", ""⟩, ⟨"a", "X", ""⟩] []).rows
        (translateCore (fun _ => Except.error ()) 50 8192
          [⟨"a", "", ""⟩, ⟨"a", "X", ""⟩] []).progress).rows =
      [⟨"a", "X", ""⟩, ⟨"a", "X", ""⟩] :=
  ⟨rfl, rfl⟩

end Tradusco
